import Mathlib

/-!
Shallow embedding of the Story Magic Orchestrator mix/timeline engine.

Times, decibel amounts and fade durations are JavaScript numbers in the
source; they are embedded as rationals (`ℚ`).  The JavaScript value
`Infinity`, which the source uses for the provisional end of a cue that
has not been closed yet, is embedded as `none` of an `Option ℚ`.
Optional object fields (`cue_id`, `duck_db`, ...) are embedded as
`Option` fields, with `none` playing the role of `undefined`.
-/

/-- Timed cue event, mirroring the event objects consumed by
`validateTimeline` and `autoFixTimeline` (workers/timeline-validator.js).
The `type` field is kept as a string exactly as in the source, since
`autoFixTimeline` dispatches on the suffixes `_in` / `_out`. -/
structure TEvent where
  type : String
  atSec : ℚ
  cue_id : Option String := none
  line_id : Option String := none
  duck_db : Option ℚ := none
  gain_db : Option ℚ := none
  fade : Option ℚ := none
deriving Repr, DecidableEq, Inhabited

/-- Comparison used by every `events.sort((a, b) => a.at - b.at)` in
the source: ascending by `at`. -/
def atLE (a b : TEvent) : Prop := a.atSec ≤ b.atSec

instance : DecidableRel atLE := fun a b => inferInstanceAs (Decidable (a.atSec ≤ b.atSec))

instance : IsTotal TEvent atLE := ⟨fun a b => le_total a.atSec b.atSec⟩

instance : IsTrans TEvent atLE := ⟨fun _ _ _ h1 h2 => le_trans h1 h2⟩

/-- Stable ascending sort by `at`, the embedding of
`events.slice().sort((a, b) => a.at - b.at)` (JavaScript sort is
stable, as is insertion sort). -/
def sortByAt (events : List TEvent) : List TEvent := List.insertionSort atLE events

/-- Truth of `t < e` where `e` may be `Infinity` (`none`). -/
def ltE (t : ℚ) : Option ℚ → Bool
  | none => true
  | some e => t < e

/-- Truth of `e > s` where `e` may be `Infinity` (`none`). -/
def gtE : Option ℚ → ℚ → Bool
  | none, _ => true
  | some e, s => s < e

/-- Subtraction `e - f` where `e` may be `Infinity` (`none`); in
JavaScript `Infinity - f` is `Infinity` for finite `f`. -/
def subE : Option ℚ → ℚ → Option ℚ
  | none, _ => none
  | some e, f => some (e - f)

/-- Embedding of `outEvent.fade || 2`: a missing fade, like a zero fade
(both falsy), yields the default crossfade window of 2 seconds. -/
def fadeOr2 : Option ℚ → ℚ
  | none => 2
  | some f => if f = 0 then 2 else f

/-- Hard validation errors pushed by `validateTimeline`.  Each
constructor abstracts one template string of the source, carrying the
values interpolated into the message. -/
inductive TErr
  | musicOverlap (newCue : Option String) (t : ℚ) (oldCue : Option String) (oldEnd : Option ℚ)
  | outOfOrder (later earlier : ℚ)
  | orphanMusicOut (cue : Option String)
  | orphanAmbienceOut (cue : Option String)
deriving Repr, DecidableEq

/-- Soft validation warnings pushed by `validateTimeline`. -/
inductive TWarn
  | ambienceOverlap (newCue : Option String) (t : ℚ) (oldCue : Option String)
  | insufficientDuck (line : Option String) (start : ℚ) (duck : ℚ)
  | ambienceMask (line : Option String) (start : ℚ) (gain : ℚ)
deriving Repr, DecidableEq

/-- Result record `{ valid, errors, warnings }` of both validators. -/
structure VResult where
  valid : Bool
  errors : List TErr
  warnings : List TWarn
deriving Repr, DecidableEq

/-- Active-track map entry `{ start, end }`; `end = none` is the
JavaScript `Infinity` placed there by an `_in` event. -/
structure CueRange where
  start : ℚ
  stop : Option ℚ
deriving Repr, DecidableEq

/-- JavaScript `Map.set`: update in place when the key is present
(keeping its insertion position), otherwise append. -/
def mapSet (m : List (Option String × CueRange)) (k : Option String) (v : CueRange) :
    List (Option String × CueRange) :=
  if m.any (fun p => p.1 = k) then
    m.map (fun p => if p.1 = k then (k, v) else p)
  else m ++ [(k, v)]

/-- Embedding of `const range = map.get(cueId); if (range) range.end = at`:
mutate the stored end of an already-opened cue, no-op otherwise. -/
def mapSetEnd (m : List (Option String × CueRange)) (k : Option String) (e : ℚ) :
    List (Option String × CueRange) :=
  m.map (fun p => if p.1 = k then (p.1, { p.2 with stop := some e }) else p)

/-- Shared active-track update of both overlap loops: an `_in` event
(re)opens its cue with end `Infinity`, an `_out` event closes an
already-opened cue, anything else leaves the map unchanged. -/
def actStep (inT outT : String) (act : List (Option String × CueRange)) (e : TEvent) :
    List (Option String × CueRange) :=
  if e.type = inT then mapSet act e.cue_id ⟨e.atSec, none⟩
  else if e.type = outT then mapSetEnd act e.cue_id e.atSec
  else act

/-- Crossfade test performed for one already-active music track when a
new `music_in` arrives (lines 24-37 of the timeline validator): an error
is pushed when `event.atSec < range.end` and, with `fadeWindow` taken from
the first `music_out` of the active cue anywhere in the sorted list,
`event.atSec < range.end - fadeWindow`. -/
def musicOverlapCheck (sortedMusic : List TEvent) (e : TEvent)
    (p : Option String × CueRange) : Option TErr :=
  if ltE e.atSec p.2.stop then
    let out? := sortedMusic.find? (fun o => o.type = "music_out" ∧ o.cue_id = p.1)
    let fadeWindow := fadeOr2 (out?.bind (fun o => o.fade))
    if ltE e.atSec (subE p.2.stop fadeWindow) then
      some (TErr.musicOverlap e.cue_id e.atSec p.1 p.2.stop)
    else none
  else none

/-- One step of the music overlap scan (state: active-track map and the
errors accumulated so far). -/
def musicStep (sortedMusic : List TEvent)
    (st : List (Option String × CueRange) × List TErr) (e : TEvent) :
    List (Option String × CueRange) × List TErr :=
  (actStep "music_in" "music_out" st.1 e,
   if e.type = "music_in" then st.2 ++ st.1.filterMap (musicOverlapCheck sortedMusic e)
   else st.2)

/-- Errors produced by the music overlap scan over the sorted music
events. -/
def musicScanErrs (sortedMusic : List TEvent) : List TErr :=
  (sortedMusic.foldl (musicStep sortedMusic) ([], [])).2

/-- One step of the ambience overlap scan; every already-active track
with `event.atSec < range.end` yields a warning (no crossfade test). -/
def ambienceStep (st : List (Option String × CueRange) × List TWarn) (e : TEvent) :
    List (Option String × CueRange) × List TWarn :=
  (actStep "ambience_in" "ambience_out" st.1 e,
   if e.type = "ambience_in" then
     st.2 ++ st.1.filterMap (fun p =>
       if ltE e.atSec p.2.stop then some (TWarn.ambienceOverlap e.cue_id e.atSec p.1) else none)
   else st.2)

/-- Warnings produced by the ambience overlap scan. -/
def ambienceScanWarns (sortedAmbience : List TEvent) : List TWarn :=
  (sortedAmbience.foldl ambienceStep ([], [])).2

/-- Dialogue span `{ line_id, start, end }` accumulated by the dialogue
scan; `stop = none` is the `Infinity` of an unclosed line. -/
structure DSpan where
  line_id : Option String
  start : ℚ
  stop : Option ℚ
deriving Repr, DecidableEq

/-- Embedding of `activeDialogue.find(l => l.line_id === id).end = at`:
set the end of the first span with the given line id. -/
def setFirstStop : List DSpan → Option String → ℚ → List DSpan
  | [], _, _ => []
  | s :: rest, lid, t =>
    if s.line_id = lid then { s with stop := some t } :: rest
    else s :: setFirstStop rest lid t

/-- Dialogue spans collected from the sorted dialogue events:
`dialogue_in` pushes an open span, `dialogue_out` closes the first span
with a matching line id. -/
def dialogueSpans (sortedDialogue : List TEvent) : List DSpan :=
  sortedDialogue.foldl (fun acc e =>
    if e.type = "dialogue_in" then acc ++ [⟨e.line_id, e.atSec, none⟩]
    else if e.type = "dialogue_out" then setFirstStop acc e.line_id e.atSec
    else acc) []

/-- End time used by the masking check for a music cue: the `at` of the
first `music_out` with the same cue id in the sorted music list, or
`Infinity` (`none`) when there is none. -/
def musicEndOf (sortedMusic : List TEvent) (e : TEvent) : Option ℚ :=
  (sortedMusic.find? (fun o => o.type = "music_out" ∧ o.cue_id = e.cue_id)).map (fun o => o.atSec)

/-- Embedding of `!event.duck_db || event.duck_db < 3` (a missing or
zero duck is falsy; `0 < 3` makes the zero case redundant). -/
def duckTooSmall : Option ℚ → Bool
  | none => true
  | some d => d < 3

/-- Embedding of `!event.gain_db || event.gain_db > -15` (a missing or
zero gain is falsy; `0 > -15` makes the zero case redundant). -/
def gainTooLoud : Option ℚ → Bool
  | none => true
  | some g => -15 < g

/-- Masking check of one music event against one dialogue span
(lines 88-103 of the timeline validator). -/
def maskMusicCheck (sortedMusic : List TEvent) (line : DSpan) (e : TEvent) : Option TWarn :=
  if e.type = "music_in" ∧ ltE e.atSec line.stop then
    if gtE (musicEndOf sortedMusic e) line.start then
      if duckTooSmall e.duck_db then
        some (TWarn.insufficientDuck line.line_id line.start (e.duck_db.getD 0))
      else none
    else none
  else none

/-- End time used by the masking check for an ambience cue. -/
def ambienceEndOf (sortedAmbience : List TEvent) (e : TEvent) : Option ℚ :=
  (sortedAmbience.find? (fun o => o.type = "ambience_out" ∧ o.cue_id = e.cue_id)).map
    (fun o => o.atSec)

/-- Masking check of one ambience event against one dialogue span
(lines 106-121 of the timeline validator). -/
def maskAmbienceCheck (sortedAmbience : List TEvent) (line : DSpan) (e : TEvent) :
    Option TWarn :=
  if e.type = "ambience_in" ∧ ltE e.atSec line.stop then
    if gtE (ambienceEndOf sortedAmbience e) line.start then
      if gainTooLoud e.gain_db then
        some (TWarn.ambienceMask line.line_id line.start (e.gain_db.getD 0))
      else none
    else none
  else none

/-- All masking warnings: for each dialogue span, first every music
event is checked, then every ambience event. -/
def maskWarns (sortedMusic sortedAmbience : List TEvent) (lines : List DSpan) : List TWarn :=
  lines.flatMap (fun line =>
    sortedMusic.filterMap (maskMusicCheck sortedMusic line) ++
    sortedAmbience.filterMap (maskAmbienceCheck sortedAmbience line))

/-- Ordering check (lines 124-130): adjacent comparison
`allEvents[i].at < allEvents[i-1].at` over the list it is given (in the
source that list has just been sorted). -/
def orderErrs : List TEvent → List TErr
  | a :: b :: rest =>
    (if b.atSec < a.atSec then [TErr.outOfOrder b.atSec a.atSec] else []) ++ orderErrs (b :: rest)
  | _ => []

/-- JavaScript `Set` built by insertion: keeps the first occurrence of
every element, in first-insertion order. -/
def jsSet {α : Type} [DecidableEq α] (l : List α) : List α :=
  l.foldl (fun s a => if a ∈ s then s else s ++ [a]) []

/-- Orphan check for one cue class: one error per distinct cue id that
appears in an `_out` event but in no `_in` event of the class. -/
def orphanErrs (mk : Option String → TErr) (ins outs : List TEvent) : List TErr :=
  (jsSet (outs.map (fun e => e.cue_id))).filterMap (fun c =>
    if c ∈ ins.map (fun e => e.cue_id) then none else some (mk c))

/-- Music events of the timeline: the `music_in` / `music_out` filter
taken on the original list, then sorted in place (line 21). -/
def musicEventsOf (events : List TEvent) : List TEvent :=
  sortByAt (events.filter (fun e => e.type = "music_in" ∨ e.type = "music_out"))

/-- Ambience events of the timeline, sorted (line 51). -/
def ambienceEventsOf (events : List TEvent) : List TEvent :=
  sortByAt (events.filter (fun e => e.type = "ambience_in" ∨ e.type = "ambience_out"))

/-- Dialogue events of the timeline, sorted (line 74). -/
def dialogueEventsOf (events : List TEvent) : List TEvent :=
  sortByAt (events.filter (fun e => e.type = "dialogue_in" ∨ e.type = "dialogue_out"))

/-- Embedding of `validateTimeline` (workers/timeline-validator.js).
The input is the `events` field of the timeline object; the three class
filters are taken on the original list and each class list is then
sorted in place before use, exactly as in the source. -/
def validateTimeline (events : List TEvent) : VResult :=
  let sortedMusic := musicEventsOf events
  let sortedAmbience := ambienceEventsOf events
  let sortedDialogue := dialogueEventsOf events
  let errors := musicScanErrs sortedMusic
    ++ orderErrs (sortByAt events)
    ++ orphanErrs TErr.orphanMusicOut
        (sortedMusic.filter (fun e => e.type = "music_in"))
        (sortedMusic.filter (fun e => e.type = "music_out"))
    ++ orphanErrs TErr.orphanAmbienceOut
        (sortedAmbience.filter (fun e => e.type = "ambience_in"))
        (sortedAmbience.filter (fun e => e.type = "ambience_out"))
  let warnings := ambienceScanWarns sortedAmbience
    ++ maskWarns sortedMusic sortedAmbience (dialogueSpans sortedDialogue)
  { valid := errors.isEmpty, errors := errors, warnings := warnings }

/-- Embedding of the JavaScript `s.endsWith(suffix)` as a suffix test
on the character data. -/
def strEndsWith (s suff : String) : Bool := suff.data.isSuffixOf s.data

/-- Embedding of `autoFixTimeline` (workers/timeline-validator.js):
re-sort by `at`, keep every `_in` event (recording its cue id), keep an
`_out` event only when its cue id was recorded earlier in the sorted
order, keep every other event unchanged. -/
def autoFixTimeline (events : List TEvent) : List TEvent :=
  ((sortByAt events).foldl (fun (st : List (Option String) × List TEvent) e =>
    if strEndsWith e.type "_in" then
      ((if e.cue_id ∈ st.1 then st.1 else st.1 ++ [e.cue_id]), st.2 ++ [e])
    else if strEndsWith e.type "_out" then
      (st.1, if e.cue_id ∈ st.1 then st.2 ++ [e] else st.2)
    else (st.1, st.2 ++ [e])) ([], [])).2

/-- Claim-side reading of the auto-fix rule: walking the sorted list
with the already-walked prefix at hand, an `_out` event is dropped
exactly when no `_in` event earlier in the sorted order carries its cue
id; every other event is kept. -/
def autoFixSpecGo : List TEvent → List TEvent → List TEvent
  | _, [] => []
  | pre, e :: rest =>
    (if strEndsWith e.type "_out"
        ∧ ¬ pre.any (fun f => strEndsWith f.type "_in" ∧ f.cue_id = e.cue_id)
     then [] else [e]) ++ autoFixSpecGo (pre ++ [e]) rest

/-- Claim-side auto-fix: the sorted event list with exactly the
never-opened `_out` events removed. -/
def autoFixSpec (events : List TEvent) : List TEvent :=
  autoFixSpecGo [] (sortByAt events)

/-- Some `_in` event of the given type in the prefix carries the cue id. -/
def hasIn (inT : String) (p : List TEvent) (y : Option String) : Prop :=
  ∃ f ∈ p, f.type = inT ∧ f.cue_id = y

/-- The cue `y` is open at the end of the prefix `p`: some `_in` event
for `y` occurs in `p` with no later `_out` event for `y` in `p`.  This
is the semantic reading of an active-map entry whose end is still
`Infinity`. -/
def openCue (inT outT : String) (p : List TEvent) (y : Option String) : Prop :=
  ∃ p1 f s1, p = p1 ++ f :: s1 ∧ f.type = inT ∧ f.cue_id = y ∧
    ∀ g ∈ s1, ¬ (g.type = outT ∧ g.cue_id = y)

/-!
Embedding of workers/export.js: crossfade-aware concatenation and the
playback manifest.  File-system lookups and the ffprobe duration call
are abstracted away by taking the per-scene durations as input.
-/

/-- Input scene record `{ scene_id, path }` with the duration that
`audioDurationSec` would measure for its file. -/
structure SceneIn where
  scene_id : String
  duration : ℚ
deriving Repr, DecidableEq

/-- Entry of the playback manifest `order` array. -/
structure SceneOut where
  scene_id : String
  offset : ℚ
  duration : ℚ
deriving Repr, DecidableEq

/-- Playback manifest returned by `makePlaybackManifest`. -/
structure PlaybackManifest where
  project_id : String
  order : List SceneOut
  total : ℚ
  crossfade_duration : ℚ
deriving Repr, DecidableEq

/-- Embedding of `parseFloat(x.toFixed(3))`: rounding to millisecond
precision (the source only ever rounds nonnegative times, where
`toFixed` rounds half up). -/
def round3 (q : ℚ) : ℚ := (Int.floor (q * 1000 + 1 / 2) : ℚ) / 1000

/-- Loop body of `makePlaybackManifest`: record the running offset and
duration (rounded at output), then advance the offset by
`duration - crossfadeDuration` for every scene but the last, and by
`duration` for the last one.  Returns the `order` entries and the final
value of the full-precision `offset` accumulator. -/
def manifestLoop (F : ℚ) : ℚ → List SceneIn → List SceneOut × ℚ
  | off, [] => ([], off)
  | off, [s] => ([⟨s.scene_id, round3 off, round3 s.duration⟩], off + s.duration)
  | off, s :: s2 :: rest =>
    let r := manifestLoop F (off + s.duration - F) (s2 :: rest)
    (⟨s.scene_id, round3 off, round3 s.duration⟩ :: r.1, r.2)

/-- Embedding of `makePlaybackManifest` (workers/export.js). -/
def makePlaybackManifest (project_id : String) (scenePaths : List SceneIn)
    (crossfadeDuration : ℚ) : PlaybackManifest :=
  let r := manifestLoop crossfadeDuration 0 scenePaths
  { project_id := project_id, order := r.1, total := round3 r.2,
    crossfade_duration := crossfadeDuration }

/-- Successive values of the full-precision `offset` variable at the
moments `makePlaybackManifest` records an `order` entry. -/
def offsetVals (F : ℚ) : ℚ → List ℚ → List ℚ
  | _, [] => []
  | off, [_] => [off]
  | off, d :: d2 :: rest => off :: offsetVals F (off + d - F) (d2 :: rest)

/-- One binary `acrossfade` request issued by `concatScenesWithCrossfade`:
blend `src1` into `src2` over `dur` seconds with the given curve on
both sides, producing `out`. -/
structure CrossfadeStep where
  src1 : String
  src2 : String
  dur : ℚ
  curve : String
  out : String
deriving Repr, DecidableEq

/-- Filter chain built by the loop of `concatScenesWithCrossfade` for
`n` inputs (`n ≥ 2`): fold left to right, labelling intermediate
results `a1, a2, ...` and the final one `out`. -/
def crossfadeChain (fadeDuration : ℚ) (fadeType : String) (n : Nat) : List CrossfadeStep :=
  (List.range (n - 1)).map (fun j =>
    let i := j + 1
    { src1 := if i = 1 then "[0:a]" else "[a" ++ toString (i - 1) ++ "]"
      src2 := "[" ++ toString i ++ ":a]"
      dur := fadeDuration
      curve := fadeType
      out := if i = n - 1 then "[out]" else "[a" ++ toString i ++ "]" })

/-- Embedding of `concatScenesWithCrossfade` (workers/export.js):
zero scenes throw, a single scene is copied with no crossfade (empty
request list), otherwise the chained crossfade-combine request is
issued. -/
def concatScenesWithCrossfade (scenePaths : List String) (fadeDuration : ℚ)
    (fadeType : String) : Except String (List CrossfadeStep) :=
  if scenePaths.length = 0 then Except.error "No scenes to concatenate"
  else if scenePaths.length = 1 then Except.ok []
  else Except.ok (crossfadeChain fadeDuration fadeType scenePaths.length)

/-!
Embedding of lib/mix.js: duck curve, volume-enable segments and the
two-pass loudness normalization.
-/

/-- RMS envelope sample `{ t, rmsDb }`. -/
structure RMSSample where
  t : ℚ
  rmsDb : ℚ
deriving Repr, DecidableEq

/-- Duck curve point `{ t, duckDb }`. -/
structure DuckPoint where
  t : ℚ
  duckDb : ℚ
deriving Repr, DecidableEq

/-- Embedding of `buildDuckCurve` (lib/mix.js): loud dialogue
(`rmsDb > -30`) ducks by 7 dB, normal dialogue (`rmsDb > -45`) by 3 dB,
anything quieter not at all. -/
def buildDuckCurve (env : List RMSSample) : List DuckPoint :=
  env.map (fun s =>
    if s.rmsDb > -30 then ⟨s.t, -7⟩
    else if s.rmsDb > -45 then ⟨s.t, -3⟩
    else ⟨s.t, 0⟩)

/-- Volume filter segment pushed by `duckToVolumeEnables`; the source
formats `duckDb`, `t0` and `t1` into one `volume=..dB:enable=..`
string, embedded here structurally with exact endpoints. -/
structure VolSeg where
  duckDb : ℚ
  t0 : ℚ
  t1 : ℚ
deriving Repr, DecidableEq

/-- Embedding of `duckToVolumeEnables` (lib/mix.js): one segment per
curve index `i` with nonzero duck, spanning `[i*hop, (i+1)*hop)`;
segments are never merged. -/
def duckToVolumeEnables (curve : List DuckPoint) (hop : ℚ) : List VolSeg :=
  curve.enum.filterMap (fun p =>
    if p.2.duckDb ≠ 0 then some ⟨p.2.duckDb, p.1 * hop, (p.1 + 1) * hop⟩ else none)

/-- ASCII whitespace, the fragment of the regex class `\s` relevant to
the loudnorm analysis text. -/
def isWS (c : Char) : Bool :=
  c = ' ' ∨ c = '\t' ∨ c = '\n' ∨ c = '\r' ∨ c.val = 11 ∨ c.val = 12

/-- Characters matched by the regex class `[",\s]` that terminates a
captured loudnorm value. -/
def lnStopChar (c : Char) : Bool :=
  c = '"' ∨ c = ',' ∨ isWS c

/-- Capture part `"?([^",\s]+)"?` of the loudnorm measurement regex: an
optional opening quote followed by at least one character outside the
stop class. -/
def lnCapture (l : List Char) : Option (List Char) :=
  match l with
  | '"' :: rest =>
    let run := rest.takeWhile (fun c => ¬ lnStopChar c)
    if run.isEmpty then none else some run
  | _ =>
    let run := l.takeWhile (fun c => ¬ lnStopChar c)
    if run.isEmpty then none else some run

/-- Attempt to match `"key"\s*:\s*"?([^",\s]+)"?` at the head of the
text, returning the captured value. -/
def lnTryAt (key : List Char) (l : List Char) : Option (List Char) :=
  match l with
  | '"' :: rest =>
    if rest.take key.length = key then
      match rest.drop key.length with
      | '"' :: r1 =>
        match r1.dropWhile isWS with
        | ':' :: r2 => lnCapture (r2.dropWhile isWS)
        | _ => none
      | _ => none
    else none
  | _ => none

/-- Leftmost match of the measurement regex in the analysis text. -/
def lnFind (key : List Char) : List Char → Option (List Char)
  | [] => none
  | c :: rest =>
    match lnTryAt key (c :: rest) with
    | some v => some v
    | none => lnFind key rest

/-- Embedding of `extractValue` (lib/mix.js): first regex match of
`"key"\s*:\s*"?([^",\s]+)"?` in the pass-1 analysis text, with the
sentinel `"0"` when there is no match. -/
def extractValue (analysisText : String) (key : String) : String :=
  match lnFind key.data analysisText.data with
  | some v => String.mk v
  | none => "0"

/-- Record of one `loudnormTwoPass` call: the five measured strings
interpolated into the pass-2 filter, and the value the function returns
to its caller (the source function ends without a return statement, so
that value is the unit of an async `undefined`). -/
structure LoudnormRun where
  measuredI : String
  measuredTP : String
  measuredLRA : String
  measuredThresh : String
  targetOffset : String
  callerResult : Unit
deriving Repr, DecidableEq

/-- Embedding of `loudnormTwoPass` (lib/mix.js).  The external ffmpeg
processes are abstracted: pass 1 is represented by the analysis text it
printed, and pass 2 — which the source always executes — by the
measured values placed into its filter string. -/
def loudnormTwoPass (analysisText : String) (_targetLUFS _truePeakDB _LRA : ℚ) :
    LoudnormRun :=
  { measuredI := extractValue analysisText "input_i"
    measuredTP := extractValue analysisText "input_tp"
    measuredLRA := extractValue analysisText "input_lra"
    measuredThresh := extractValue analysisText "input_thresh"
    targetOffset := extractValue analysisText "target_offset"
    callerResult := () }

/-!
Embedding of lib/ffmpeg-validator.js (`validateFiltergraph`).  The
filtergraph is the raw string; labels are the contents of the bracket
groups found by the regex `\[([^\]]+)\]`, scanned left to right.
-/

/-- Worker of `scanGroups`: character scan for the regex
`\[([^\]]+)\]`.  Outside a group (`none`) a `[` opens one; inside a
group (`some acc`) a `]` closes it, emitting the accumulated content
when it is nonempty (the regex needs at least one non-`]` character),
and any other character, `[` included, extends the content.  An
unterminated group at the end of the string emits nothing, and after an
empty `[]` the scan resumes, exactly as the regex engine does. -/
def scanGroupsGo : List Char → Option (List Char) → List (List Char)
  | [], _ => []
  | c :: rest, none =>
    if c = '[' then scanGroupsGo rest (some []) else scanGroupsGo rest none
  | c :: rest, some acc =>
    if c = ']' then
      if acc.isEmpty then scanGroupsGo rest none else acc :: scanGroupsGo rest none
    else scanGroupsGo rest (some (acc ++ [c]))

/-- Left-to-right scan for the regex `\[([^\]]+)\]`: the bracket
groups of a chain in order. -/
def scanGroups (l : List Char) : List (List Char) := scanGroupsGo l none

/-- Worker of `lastGroupAndTail`: same scan as `scanGroupsGo`, keeping
the last matched group and the characters after its closing `]`. -/
def lastGroupGo : List Char → Option (List Char) → Option (List Char × List Char)
  | [], _ => none
  | c :: rest, none =>
    if c = '[' then lastGroupGo rest (some []) else lastGroupGo rest none
  | c :: rest, some acc =>
    if c = ']' then
      if acc.isEmpty then lastGroupGo rest none
      else
        match lastGroupGo rest none with
        | some r => some r
        | none => some (acc, rest)
    else lastGroupGo rest (some (acc ++ [c]))

/-- Last bracket group of a chain together with the characters after
its closing `]`. -/
def lastGroupAndTail (l : List Char) : Option (List Char × List Char) := lastGroupGo l none

/-- Output label of a chain, the embedding of the regex
`\[([^\]]+)\](?=[^[]*$)`: the last bracket group, provided no `[`
follows its closing `]`. -/
def outputLabel (part : List Char) : Option (List Char) :=
  match lastGroupAndTail part with
  | some (g, tl) => if tl.any (fun c => c = '[') then none else some g
  | none => none

/-- Input labels of a chain: all bracket groups except the last one,
considered only when the chain has more than one group. -/
def inputLabels (part : List Char) : List (List Char) :=
  let gs := scanGroups part
  if gs.length > 1 then gs.dropLast else []

/-- Raw-stream specifier test, the regex `^\d+:a$`. -/
def isStreamSpec (l : List Char) : Bool :=
  let ds := l.takeWhile (fun c => c.isDigit)
  ¬ ds.isEmpty ∧ l.drop ds.length = [':', 'a']

/-- JavaScript `String.split(';')`. -/
def splitSemi : List Char → List (List Char)
  | [] => [[]]
  | c :: rest =>
    if c = ';' then [] :: splitSemi rest
    else
      match splitSemi rest with
      | p :: ps => (c :: p) :: ps
      | [] => [[c]]



/-- Hard errors pushed by `validateFiltergraph`, one constructor per
template string. -/
inductive FErr
  | unbalanced (openB closeB : Nat)
  | duplicateOut (label : String)
  | undefinedInput (label : String)
  | circular (label : String)
deriving Repr, DecidableEq

/-- Soft warnings pushed by `validateFiltergraph`. -/
inductive FWarn
  | specialChars (label : String)
  | emptyChain
deriving Repr, DecidableEq

/-- Result record of `validateFiltergraph`. -/
structure FGResult where
  valid : Bool
  errors : List FErr
  warnings : List FWarn
deriving Repr, DecidableEq

/-- Dependency graph built for cycle detection: `Map.set` of
output label to input labels, later chains overwriting earlier ones
with the same output label. -/
def gSet (g : List (List Char × List (List Char))) (k : List Char)
    (v : List (List Char)) : List (List Char × List (List Char)) :=
  if g.any (fun p => p.1 = k) then g.map (fun p => if p.1 = k then (k, v) else p)
  else g ++ [(k, v)]

/-- Embedding of the graph-building loop (lines 170-179): one edge set
per chain having both an output label and at least two groups. -/
def fgGraph (parts : List (List Char)) : List (List Char × List (List Char)) :=
  parts.foldl (fun g p =>
    match outputLabel p with
    | some out => if (scanGroups p).length > 1 then gSet g out (scanGroups p).dropLast else g
    | none => g) []

/-- Embedding of `graph.get(node) || []`. -/
def neighbors (g : List (List Char × List (List Char))) (n : List Char) :
    List (List Char) :=
  ((g.find? (fun p => p.1 = n)).map (fun p => p.2)).getD []

/-- Embedding of the recursive `hasCycle` (lines 185-197), with the
`visiting` and `visited` sets threaded explicitly and a fuel argument
standing in for unbounded recursion (the fuel used below always
suffices).  A node already in `visiting` is a back edge; a `visited`
node is skipped; otherwise the node is pushed onto `visiting`, its
neighbors are explored in order — once one reports a cycle the rest
are skipped, as the source returns immediately — and on success the
node moves from `visiting` to `visited`. -/
def dfsNode (g : List (List Char × List (List Char))) :
    Nat → List Char → List (List Char) → List (List Char) →
    Bool × List (List Char) × List (List Char)
  | 0, _, vis, done => (false, vis, done)
  | fuel + 1, node, vis, done =>
    if node ∈ vis then (true, vis, done)
    else if node ∈ done then (false, vis, done)
    else
      let r := (neighbors g node).foldl
        (fun st n => if st.1 then st else dfsNode g fuel n st.2.1 st.2.2)
        (false, vis ++ [node], done)
      if r.1 then (true, r.2.1, r.2.2)
      else (false, r.2.1.erase node, r.2.2 ++ [node])

/-- All label occurrences of the graph: every key followed by its
input labels. -/
def nodesOf (g : List (List Char × List (List Char))) : List (List Char) :=
  g.flatMap (fun p => p.1 :: p.2)

/-- Fuel that always suffices for `dfsNode`: one more than the total
number of label occurrences in the graph. -/
def dfsFuel (g : List (List Char × List (List Char))) : Nat :=
  (nodesOf g).length + 1

/-- Embedding of the outer cycle loop (lines 199-204): depth-first
search from every key in insertion order, one error for the first
cycle found, then stop. -/
def cycleScan (g : List (List Char × List (List Char))) :
    List (List Char × List (List Char)) → List (List Char) × List (List Char) → List FErr
  | [], _ => []
  | (k, _) :: rest, st =>
    let r := dfsNode g (dfsFuel g) k st.1 st.2
    if r.1 then [FErr.circular (String.mk k)] else cycleScan g rest (r.2.1, r.2.2)

/-- Cycle errors of the whole graph. -/
def cycleErrs (g : List (List Char × List (List Char))) : List FErr :=
  cycleScan g g ([], [])

/-- Whitespace-stripped filtergraph string (line 89). -/
def normalizedOf (fg : String) : List Char := fg.data.filter (fun c => ¬ isWS c)

/-- Nonempty filter chains of the graph (line 107). -/
def partsOf (fg : String) : List (List Char) :=
  (splitSemi (normalizedOf fg)).filter (fun p => ¬ p.isEmpty)

/-- Set of output labels of all chains (lines 121-129), collected
before any input reference is checked. -/
def definedLabelsOf (fg : String) : List (List Char) :=
  jsSet ((partsOf fg).filterMap outputLabel)

/-- Duplicate-output check (lines 105-118): walk the chains keeping the
set of output labels seen so far, one error per chain whose output
label was already taken. -/
def dupOutErrs (parts : List (List Char)) : List FErr :=
  (parts.foldl (fun (st : List (List Char) × List FErr) p =>
    match outputLabel p with
    | some l =>
      if l ∈ st.1 then (st.1, st.2 ++ [FErr.duplicateOut (String.mk l)])
      else (st.1 ++ [l], st.2)
    | none => st) ([], [])).2

/-- Undefined-input check (lines 131-150): every input label that is
neither a raw-stream specifier nor in the set of defined labels yields
one error. -/
def undefInputErrs (parts definedLabels : List (List Char)) : List FErr :=
  parts.flatMap (fun p =>
    (inputLabels p).filterMap (fun l =>
      if isStreamSpec l then none
      else if l ∈ definedLabels then none
      else some (FErr.undefinedInput (String.mk l))))

/-- Embedding of `validateFiltergraph` (lib/ffmpeg-validator.js). -/
def validateFiltergraph (fg : String) : FGResult :=
  let normalized := normalizedOf fg
  let openB := (normalized.filter (fun c => c = '[')).length
  let closeB := (normalized.filter (fun c => c = ']')).length
  let bracketErrs := if openB ≠ closeB then [FErr.unbalanced openB closeB] else []
  let labelNames := scanGroups normalized
  let parts := partsOf fg
  let charWarns := labelNames.filterMap (fun l =>
    if ¬ isStreamSpec l ∧ l.any (fun c => ¬ (c.isAlphanum ∨ c = '_')) then
      some (FWarn.specialChars (String.mk l))
    else none)
  let emptyWarns := if parts.any (fun p => p.isEmpty) then [FWarn.emptyChain] else []
  let errors := bracketErrs ++ dupOutErrs parts
    ++ undefInputErrs parts (definedLabelsOf fg) ++ cycleErrs (fgGraph parts)
  { valid := errors.isEmpty, errors := errors, warnings := charWarns ++ emptyWarns }


/-- Spec-side duck segments, worded as the claim states them: one
segment per sample index `i`, spanning `[i*hop, (i+1)*hop)`, whose
level is `-7` when `rmsDb > -30`, `-3` when `-45 < rmsDb ≤ -30`, and
absent when `rmsDb ≤ -45`. -/
def duckSegsSpecGo (hop : ℚ) : Nat → List RMSSample → List VolSeg
  | _, [] => []
  | i, s :: rest =>
    (if s.rmsDb > -30 then [⟨-7, i * hop, (i + 1) * hop⟩]
     else if -45 < s.rmsDb ∧ s.rmsDb ≤ -30 then [⟨-3, i * hop, (i + 1) * hop⟩]
     else []) ++ duckSegsSpecGo hop (i + 1) rest

/-- Spec-side duck segments for a whole envelope. -/
def duckSegsSpec (env : List RMSSample) (hop : ℚ) : List VolSeg :=
  duckSegsSpecGo hop 0 env

/-- Edge relation of the cycle-detection graph: `fgEdge g x y` when the
chain that defines `x` (after `Map.set` overwrites) lists `y` among its
inputs. -/
def fgEdge (g : List (List Char × List (List Char))) (x y : List Char) : Prop :=
  y ∈ neighbors g x

/-- The cycle-detection graph has a cycle: some label depends on itself
through one or more `fgEdge` steps. -/
def fgCyclic (g : List (List Char × List (List Char))) : Prop :=
  ∃ x, Relation.TransGen (fgEdge g) x x

/-- Claim-side dependency reading of a filtergraph string: some chain
has output label `x` and input label `y` (no overwriting of duplicate
output labels). -/
def chainDepends (fg : String) (x y : List Char) : Prop :=
  ∃ p ∈ partsOf fg, outputLabel p = some x ∧ y ∈ inputLabels p

instance (fg : String) (x y : List Char) : Decidable (chainDepends fg x y) := by
  unfold chainDepends
  infer_instance

/-- Recognizer for circular-dependency errors. -/
def isCircularErr : FErr → Bool
  | FErr.circular _ => true
  | _ => false

/-- Invariant tying an active-track map to the prefix of sorted events
already processed: the keys are the cues with an `_in` event in the
prefix; an entry's end is `Infinity` exactly when its cue is still
open; a finite end is the time of an `_out` event of the prefix. -/
def INVact (inT outT : String) (p : List TEvent)
    (act : List (Option String × CueRange)) : Prop :=
  (∀ y, (∃ r, (y, r) ∈ act) ↔ hasIn inT p y)
  ∧ (∀ y r, (y, r) ∈ act → (r.stop = none ↔ openCue inT outT p y))
  ∧ (∀ y r e, (y, r) ∈ act → r.stop = some e →
      ∃ f ∈ p, f.type = outT ∧ f.cue_id = y ∧ f.atSec = e)

/-- Semantic condition under which the overlap scan emits an item for
the pair `(X at t, Y)`: some `_in` event for `X` at time `t` occurs in
the sorted class list while `Y` is open — opened earlier with no
intervening `_out` for `Y`. -/
def overlapEmit (inT outT : String) (q : List TEvent) (X : Option String) (t : ℚ)
    (Y : Option String) : Prop :=
  ∃ p1 e s1, q = p1 ++ e :: s1 ∧ e.type = inT ∧ e.cue_id = X ∧ e.atSec = t ∧
    openCue inT outT p1 Y

/-- The label `v` reaches a cycle of the graph: some `w` reachable from
`v` depends on itself through one or more steps. -/
def reachesCycle (g : List (List Char × List (List Char))) (v : List Char) : Prop :=
  ∃ w, Relation.ReflTransGen (fgEdge g) v w ∧ Relation.TransGen (fgEdge g) w w

/-!
Theorems.  Each claim of the specification is settled below; helper
lemmas come first.
-/

theorem offsetVals_cons (F off d : ℚ) (rest : List ℚ) :
    offsetVals F off (d :: rest) = off :: offsetVals F (off + d - F) rest := by
  cases rest <;> rfl

theorem offsetVals_head (F off d : ℚ) (rest : List ℚ) :
    (offsetVals F off (d :: rest)).getD 0 0 = off := by
  rw [offsetVals_cons]; rfl

theorem offsetVals_getD_succ (F : ℚ) :
    ∀ (ds : List ℚ) (off : ℚ) (i : Nat), i + 1 < ds.length →
      (offsetVals F off ds).getD (i + 1) 0 =
        (offsetVals F off ds).getD i 0 + ds.getD i 0 - F := by
  intro ds
  induction ds with
  | nil => intro off i h; simp at h
  | cons d rest ih =>
    intro off i h
    rw [offsetVals_cons]
    cases i with
    | zero =>
      cases rest with
      | nil => simp at h
      | cons r rs =>
        simp only [List.getD_cons_succ, List.getD_cons_zero]
        exact offsetVals_head F (off + d - F) r rs
    | succ k =>
      have hk : k + 1 < rest.length := by simpa using h
      simp only [List.getD_cons_succ]
      exact ih (off + d - F) k hk

theorem manifestLoop_total (F : ℚ) :
    ∀ (sc : List SceneIn) (off : ℚ), sc ≠ [] →
      (manifestLoop F off sc).2 =
        (offsetVals F off (sc.map (fun s => s.duration))).getD (sc.length - 1) 0 +
          (sc.map (fun s => s.duration)).getD (sc.length - 1) 0 := by
  intro sc
  induction sc with
  | nil => intro off h; simp at h
  | cons s tl ih =>
    intro off _
    cases tl with
    | nil => simp [manifestLoop, offsetVals]
    | cons s2 rest =>
      have h3 := ih (off + s.duration - F) (by simp)
      simp only [manifestLoop, List.map_cons, offsetVals_cons, List.getD_cons_succ,
        List.length_cons, Nat.add_sub_cancel] at h3 ⊢
      exact h3

theorem manifestLoop_offsets (F : ℚ) :
    ∀ (sc : List SceneIn) (off : ℚ),
      (manifestLoop F off sc).1.map (fun o => o.offset) =
        (offsetVals F off (sc.map (fun s => s.duration))).map round3 := by
  intro sc
  induction sc with
  | nil => intro off; rfl
  | cons s tl ih =>
    intro off
    cases tl with
    | nil => rfl
    | cons s2 rest =>
      have h3 := ih (off + s.duration - F)
      simp only [manifestLoop, List.map_cons, offsetVals_cons] at h3 ⊢
      simp only [List.cons.injEq, true_and]
      exact h3

/-- C5.  The playback manifest's offset arithmetic: the first offset is
0; each later offset is the previous one plus the previous duration
minus the crossfade duration `F`; the final full-precision accumulator
(the manifest total before millisecond rounding) is the last offset
plus the last duration; the recorded offsets are exactly these values
rounded to millisecond precision; for a single scene the accumulated
total is that scene's duration with no subtraction; and concatenation
of zero scenes fails with `No scenes to concatenate`. -/
theorem makePlaybackManifest_offsets (F : ℚ) (sc : List SceneIn) :
    (offsetVals F 0 (sc.map (fun s => s.duration))).getD 0 0 = 0
    ∧ (∀ i : Nat, i + 1 < sc.length →
        (offsetVals F 0 (sc.map (fun s => s.duration))).getD (i + 1) 0 =
          (offsetVals F 0 (sc.map (fun s => s.duration))).getD i 0 +
            (sc.map (fun s => s.duration)).getD i 0 - F)
    ∧ (sc ≠ [] → (manifestLoop F 0 sc).2 =
        (offsetVals F 0 (sc.map (fun s => s.duration))).getD (sc.length - 1) 0 +
          (sc.map (fun s => s.duration)).getD (sc.length - 1) 0)
    ∧ (∀ pid : String, (makePlaybackManifest pid sc F).order.map (fun o => o.offset) =
        (offsetVals F 0 (sc.map (fun s => s.duration))).map round3)
    ∧ (∀ s : SceneIn, (manifestLoop F 0 [s]).2 = s.duration)
    ∧ (∀ ft : String,
        concatScenesWithCrossfade [] F ft = Except.error "No scenes to concatenate") := by
  refine ⟨?_, ?_, ?_, ?_, ?_, ?_⟩
  · cases sc with
    | nil => rfl
    | cons s tl => exact offsetVals_head F 0 s.duration (tl.map (fun s => s.duration))
  · intro i h
    exact offsetVals_getD_succ F (sc.map (fun s => s.duration)) 0 i (by simpa using h)
  · intro h
    exact manifestLoop_total F sc 0 h
  · intro pid
    simpa [makePlaybackManifest] using manifestLoop_offsets F sc 0
  · intro s; simp [manifestLoop]
  · intro ft; rfl

/-- Witness for C5 on the worked example of the specification:
durations `[10, 8, 12]` with `F = 1.5` give offsets `[0, 8.5, 15]` and
total `27`; a single scene of `9.3` seconds totals `9.3` exactly. -/
theorem makePlaybackManifest_offsets_witness :
    (offsetVals (3/2) 0
        (([⟨"s1", 10⟩, ⟨"s2", 8⟩, ⟨"s3", 12⟩] : List SceneIn).map (fun s => s.duration))
      = [0, 17/2, 15])
    ∧ (0 + 1 < ([⟨"s1", 10⟩, ⟨"s2", 8⟩, ⟨"s3", 12⟩] : List SceneIn).length
      ∧ (offsetVals (3/2) 0
          (([⟨"s1", 10⟩, ⟨"s2", 8⟩, ⟨"s3", 12⟩] : List SceneIn).map (fun s => s.duration))).getD
            (0 + 1) 0 =
        (offsetVals (3/2) 0
          (([⟨"s1", 10⟩, ⟨"s2", 8⟩, ⟨"s3", 12⟩] : List SceneIn).map (fun s => s.duration))).getD
            0 0 +
          (([⟨"s1", 10⟩, ⟨"s2", 8⟩, ⟨"s3", 12⟩] : List SceneIn).map
            (fun s => s.duration)).getD 0 0 - 3/2)
    ∧ (manifestLoop (3/2) 0 [⟨"s1", 10⟩, ⟨"s2", 8⟩, ⟨"s3", 12⟩]).2 = 27
    ∧ (manifestLoop (3/2) 0 [⟨"s1", 93/10⟩]).2 = 93/10
    ∧ concatScenesWithCrossfade [] (3/2) "tri" = Except.error "No scenes to concatenate" := by
  refine ⟨by norm_num [offsetVals], ⟨by decide, ?_⟩, by norm_num [manifestLoop], ?_, ?_⟩
  · exact (makePlaybackManifest_offsets (3/2) [⟨"s1", 10⟩, ⟨"s2", 8⟩, ⟨"s3", 12⟩]).2.1 0
      (by decide)
  · exact (makePlaybackManifest_offsets (3/2) [⟨"s1", 93/10⟩]).2.2.2.2.1 ⟨"s1", 93/10⟩
  · exact (makePlaybackManifest_offsets (3/2) ([] : List SceneIn)).2.2.2.2.2 "tri"

theorem buildDuckCurve_cons (s : RMSSample) (rest : List RMSSample) :
    buildDuckCurve (s :: rest) =
      (if s.rmsDb > -30 then ⟨s.t, -7⟩
       else if s.rmsDb > -45 then ⟨s.t, -3⟩ else ⟨s.t, 0⟩) :: buildDuckCurve rest := rfl

theorem duckSegs_enumFrom (hop : ℚ) :
    ∀ (env : List RMSSample) (n : Nat),
      ((buildDuckCurve env).enumFrom n).filterMap (fun p =>
        if p.2.duckDb ≠ 0 then some ⟨p.2.duckDb, p.1 * hop, (p.1 + 1) * hop⟩ else none) =
      duckSegsSpecGo hop n env := by
  intro env
  induction env with
  | nil => intro n; rfl
  | cons s rest ih =>
    intro n
    rw [buildDuckCurve_cons]
    simp only [ite_not] at ih
    by_cases h1 : s.rmsDb > -30
    · rw [if_pos h1]
      norm_num [List.enumFrom_cons, List.filterMap_cons, ih (n + 1), duckSegsSpecGo, h1]
    · by_cases h2 : s.rmsDb > -45
      · rw [if_neg h1, if_pos h2]
        have hcond : -45 < s.rmsDb ∧ s.rmsDb ≤ -30 := ⟨h2, le_of_not_lt h1⟩
        norm_num [List.enumFrom_cons, List.filterMap_cons, ih (n + 1), duckSegsSpecGo, h1,
          hcond]
      · rw [if_neg h1, if_neg h2]
        have hcond : ¬ (-45 < s.rmsDb ∧ s.rmsDb ≤ -30) := fun hc => h2 hc.1
        norm_num [List.enumFrom_cons, List.filterMap_cons, ih (n + 1), duckSegsSpecGo, h1,
          hcond]

/-- C6.  The duck curve maps each sample independently through the hard
thresholds (`rmsDb > -30 → -7`, `-45 < rmsDb ≤ -30 → -3`, otherwise no
duck), and `duckToVolumeEnables` emits exactly one segment per index
with a nonzero duck, spanning `[i*hop, (i+1)*hop)` and never merging
adjacent segments — stated as equality with the spec-side segment list,
together with the worked example `[-20, -35, -50]` at hop `0.1`. -/
theorem duckToVolumeEnables_spec :
    (∀ (env : List RMSSample) (hop : ℚ),
      duckToVolumeEnables (buildDuckCurve env) hop = duckSegsSpec env hop)
    ∧ duckToVolumeEnables
        (buildDuckCurve [⟨0, -20⟩, ⟨1/10, -35⟩, ⟨2/10, -50⟩]) (1/10) =
      [⟨-7, 0, 1/10⟩, ⟨-3, 1/10, 1/5⟩] := by
  constructor
  · intro env hop
    exact duckSegs_enumFrom hop env 0
  · norm_num [duckToVolumeEnables, buildDuckCurve, List.enum, List.enumFrom,
      List.filterMap_cons]

theorem sortByAt_pairwise (l : List TEvent) : (sortByAt l).Pairwise atLE :=
  List.sorted_insertionSort atLE l

theorem sortByAt_mem {l : List TEvent} {e : TEvent} : e ∈ sortByAt l ↔ e ∈ l :=
  List.mem_insertionSort atLE

theorem orderErrs_of_pairwise : ∀ l : List TEvent, l.Pairwise atLE → orderErrs l = [] := by
  intro l
  induction l with
  | nil => intro _; rfl
  | cons a rest ih =>
    intro h
    cases rest with
    | nil => rfl
    | cons b rs =>
      have hab : atLE a b := (List.pairwise_cons.mp h).1 b (by simp)
      have hrest := (List.pairwise_cons.mp h).2
      simp only [orderErrs]
      rw [if_neg (by exact not_lt.mpr hab)]
      simpa using ih hrest

theorem musicOverlapCheck_shape {m : List TEvent} {e : TEvent}
    {p : Option String × CueRange} {err : TErr}
    (h : musicOverlapCheck m e p = some err) :
    ∃ a t c en, err = TErr.musicOverlap a t c en := by
  simp only [musicOverlapCheck] at h
  split_ifs at h
  exact ⟨_, _, _, _, (Option.some_inj.mp h).symm⟩

theorem musicScanFold_shape (m : List TEvent) :
    ∀ (l : List TEvent) (st : List (Option String × CueRange) × List TErr),
      (∀ x ∈ st.2, ∃ a t c en, x = TErr.musicOverlap a t c en) →
      ∀ x ∈ (l.foldl (musicStep m) st).2, ∃ a t c en, x = TErr.musicOverlap a t c en := by
  intro l
  induction l with
  | nil => intro st h x hx; exact h x hx
  | cons e rest ih =>
    intro st h x hx
    refine ih (musicStep m st e) ?_ x hx
    intro y hy
    unfold musicStep at hy
    split_ifs at hy with h1
    · rcases List.mem_append.mp hy with h2 | h2
      · exact h y h2
      · rcases List.mem_filterMap.mp h2 with ⟨p, _, hp⟩
        exact musicOverlapCheck_shape hp
    · exact h y hy

theorem musicScanErrs_shape {m : List TEvent} {x : TErr} (hx : x ∈ musicScanErrs m) :
    ∃ a t c en, x = TErr.musicOverlap a t c en :=
  musicScanFold_shape m m ([], []) (by simp) x hx

theorem orphanErrs_shape {mk : Option String → TErr} {ins outs : List TEvent} {x : TErr}
    (hx : x ∈ orphanErrs mk ins outs) : ∃ c, x = mk c := by
  rcases List.mem_filterMap.mp hx with ⟨c, _, hc⟩
  refine ⟨c, ?_⟩
  by_cases h : c ∈ ins.map (fun e => e.cue_id)
  · simp [h] at hc
  · simp [h] at hc
    exact hc.symm

/-- C1 (code bug).  The ordering rule is dead code: the source sorts a
copy of the events and then compares adjacent elements of that sorted
copy, so the out-of-order error can never fire.  First conjunct: on the
failing input — two dialogue events whose `at` regresses from 5 to 3 in
original input order — the validator reports no error at all and
`valid = true`, where the specification demands an ordering error and
`valid = false`.  Second conjunct: no timeline whatsoever can produce
an out-of-order error. -/
theorem validateTimeline_ordering_check_dead :
    validateTimeline [⟨"dialogue_in", 5, none, some "L1", none, none, none⟩,
        ⟨"dialogue_in", 3, none, some "L2", none, none, none⟩] =
      ⟨true, [], []⟩
    ∧ ∀ (events : List TEvent) (a b : ℚ),
        TErr.outOfOrder a b ∉ (validateTimeline events).errors := by
  constructor
  · decide
  · intro events a b h
    simp only [validateTimeline, List.mem_append] at h
    rcases h with ((h | h) | h) | h
    · rcases musicScanErrs_shape h with ⟨_, _, _, _, hx⟩
      exact absurd hx (by simp)
    · rw [orderErrs_of_pairwise _ (sortByAt_pairwise events)] at h
      exact absurd h (List.not_mem_nil _)
    · rcases orphanErrs_shape h with ⟨_, hx⟩
      exact absurd hx (by simp)
    · rcases orphanErrs_shape h with ⟨_, hx⟩
      exact absurd hx (by simp)

/-- C9 (counterexample).  On an empty pass-1 analysis (no parseable
measurement) all five measured values fall back to the sentinel `"0"`
and pass 2 still runs, but the value returned to the caller is
identical to the one returned for an input measured exactly at the
target loudness: the caller cannot distinguish the two cases, contrary
to the claim. -/
theorem loudnormTwoPass_caller_cannot_distinguish :
    (loudnormTwoPass "" (-16) (-1) 11).measuredI = "0"
    ∧ (loudnormTwoPass
        "\"input_i\" : \"-16.0\", \"input_tp\" : \"-1.0\", \"input_lra\" : \"11.0\", \"input_thresh\" : \"-26.6\", \"target_offset\" : \"0.0\""
        (-16) (-1) 11).measuredI = "-16.0"
    ∧ (loudnormTwoPass "" (-16) (-1) 11).callerResult
      = (loudnormTwoPass
        "\"input_i\" : \"-16.0\", \"input_tp\" : \"-1.0\", \"input_lra\" : \"11.0\", \"input_thresh\" : \"-26.6\", \"target_offset\" : \"0.0\""
        (-16) (-1) 11).callerResult := by
  refine ⟨by decide, by decide, rfl⟩

/-- C9 (amended).  When pass 1 yields no parseable measurement the
source still runs pass 2, substituting the sentinel `"0"` for each of
the five measured quantities; but the function returns no measurement
information at all, so no caller can distinguish any two pass-1
outcomes — in particular "measurement unavailable" is not
distinguishable from "already at target". -/
theorem loudnormTwoPass_sentinel_defaults :
    (∀ (txt1 txt2 : String) (tI tTP tLRA : ℚ),
      (loudnormTwoPass txt1 tI tTP tLRA).callerResult
        = (loudnormTwoPass txt2 tI tTP tLRA).callerResult)
    ∧ loudnormTwoPass "" (-16) (-1) 11 =
      { measuredI := "0", measuredTP := "0", measuredLRA := "0", measuredThresh := "0",
        targetOffset := "0", callerResult := () } :=
  ⟨fun _ _ _ _ _ => rfl, by decide⟩

/-- C4 (counterexample).  A `dialogue_out` with no `dialogue_in`
anywhere is not reported: the orphan rule of the source only checks the
music and ambience classes, so the result is `valid = true` with no
errors, where the claim demands an orphan error and `valid = false`. -/
theorem validateTimeline_dialogue_orphan_unchecked :
    validateTimeline [⟨"dialogue_out", 0, none, some "L", none, none, none⟩] =
      ⟨true, [], []⟩ := by decide

theorem mem_jsSetFold {α : Type} [DecidableEq α] :
    ∀ (l acc : List α) (a : α),
      a ∈ l.foldl (fun s x => if x ∈ s then s else s ++ [x]) acc ↔ a ∈ acc ∨ a ∈ l := by
  intro l
  induction l with
  | nil => intro acc a; simp
  | cons x rest ih =>
    intro acc a
    by_cases hx : x ∈ acc
    · simp only [List.foldl_cons, if_pos hx, ih]
      constructor
      · rintro (h | h)
        · exact Or.inl h
        · exact Or.inr (by simp [h])
      · rintro (h | h)
        · exact Or.inl h
        · rcases List.mem_cons.mp h with rfl | h2
          · exact Or.inl hx
          · exact Or.inr h2
    · simp only [List.foldl_cons, if_neg hx, ih]
      simp only [List.mem_append, List.mem_singleton, List.mem_cons]
      tauto

theorem mem_jsSet {α : Type} [DecidableEq α] {l : List α} {a : α} :
    a ∈ jsSet l ↔ a ∈ l := by
  unfold jsSet
  rw [mem_jsSetFold]
  simp

theorem jsSetFold_nodup {α : Type} [DecidableEq α] :
    ∀ (l acc : List α), acc.Nodup →
      (l.foldl (fun s x => if x ∈ s then s else s ++ [x]) acc).Nodup := by
  intro l
  induction l with
  | nil => intro acc h; simpa using h
  | cons x rest ih =>
    intro acc h
    by_cases hx : x ∈ acc
    · simpa [List.foldl_cons, if_pos hx] using ih acc h
    · rw [List.foldl_cons, if_neg hx]
      refine ih (acc ++ [x]) ?_
      simpa [List.nodup_append] using ⟨h, hx⟩

theorem jsSet_nodup {α : Type} [DecidableEq α] (l : List α) : (jsSet l).Nodup :=
  jsSetFold_nodup l [] List.nodup_nil

theorem countP_orphanErrs (mk : Option String → TErr)
    (hmk : ∀ a b, mk a = mk b → a = b) (c : Option String) :
    ∀ (src : List (Option String)), src.Nodup → ∀ (insIds : List (Option String)),
      (src.filterMap (fun a => if a ∈ insIds then none else some (mk a))).countP
          (fun x => x = mk c)
        = if c ∈ src ∧ c ∉ insIds then 1 else 0 := by
  intro src
  induction src with
  | nil => intro _ insIds; simp
  | cons a rest ih =>
    intro hnd insIds
    have hnd2 := List.nodup_cons.mp hnd
    by_cases ha : a ∈ insIds
    · simp only [List.filterMap_cons, if_pos ha]
      rw [ih hnd2.2 insIds]
      by_cases hc : c = a
      · subst hc
        simp [ha, hnd2.1]
      · simp [List.mem_cons, hc]
    · simp only [List.filterMap_cons, if_neg ha]
      rw [List.countP_cons, ih hnd2.2 insIds]
      by_cases hc : c = a
      · subst hc
        simp [ha, hnd2.1]
      · have : ¬ (mk a = mk c) := fun h => hc (hmk _ _ h).symm
        simp [List.mem_cons, hc, this]

theorem orphanErrs_countP (mk : Option String → TErr)
    (hmk : ∀ a b, mk a = mk b → a = b) (c : Option String) (ins outs : List TEvent) :
    (orphanErrs mk ins outs).countP (fun x => x = mk c)
      = if c ∈ outs.map (fun e => e.cue_id) ∧ c ∉ ins.map (fun e => e.cue_id)
        then 1 else 0 := by
  unfold orphanErrs
  rw [countP_orphanErrs mk hmk c _ (jsSet_nodup _) _]
  by_cases h : c ∈ outs.map (fun e => e.cue_id)
  · simp [mem_jsSet, h]
  · simp [mem_jsSet, h]

theorem mem_cueIds (events : List TEvent) (tIn tOut tSel : String) (c : Option String)
    (hsel : tSel = tIn ∨ tSel = tOut) :
    c ∈ ((sortByAt (events.filter (fun e => e.type = tIn ∨ e.type = tOut))).filter
          (fun e => e.type = tSel)).map (fun e => e.cue_id)
      ↔ ∃ e ∈ events, e.type = tSel ∧ e.cue_id = c := by
  simp only [List.mem_map, List.mem_filter, sortByAt_mem, decide_eq_true_eq]
  constructor
  · rintro ⟨e, ⟨⟨he, _⟩, ht⟩, hc⟩
    exact ⟨e, he, ht, hc⟩
  · rintro ⟨e, he, ht, hc⟩
    exact ⟨e, ⟨⟨he, hsel.elim (fun h => Or.inl (ht.trans h)) (fun h => Or.inr (ht.trans h))⟩,
      ht⟩, hc⟩

/-- C4 (amended).  The orphan rule holds for the music and the ambience
cue classes — exactly one error per distinct cue id having an `_out`
but no `_in` anywhere in the sequence, no error when a matching `_in`
exists, and `valid = false` whenever an orphan exists — but dialogue
events are never orphan-checked. -/
theorem validateTimeline_orphan_rule (events : List TEvent) (c : Option String) :
    ((validateTimeline events).errors.countP (fun x => x = TErr.orphanMusicOut c)
      = if (∃ e ∈ events, e.type = "music_out" ∧ e.cue_id = c)
           ∧ ¬ ∃ e ∈ events, e.type = "music_in" ∧ e.cue_id = c then 1 else 0)
    ∧ ((validateTimeline events).errors.countP (fun x => x = TErr.orphanAmbienceOut c)
      = if (∃ e ∈ events, e.type = "ambience_out" ∧ e.cue_id = c)
           ∧ ¬ ∃ e ∈ events, e.type = "ambience_in" ∧ e.cue_id = c then 1 else 0)
    ∧ ((∃ e ∈ events, e.type = "music_out" ∧ e.cue_id = c)
         ∧ ¬ (∃ e ∈ events, e.type = "music_in" ∧ e.cue_id = c) →
       (validateTimeline events).valid = false) := by
  have herr : (validateTimeline events).errors =
      musicScanErrs (musicEventsOf events)
      ++ orderErrs (sortByAt events)
      ++ orphanErrs TErr.orphanMusicOut
          ((musicEventsOf events).filter (fun e => e.type = "music_in"))
          ((musicEventsOf events).filter (fun e => e.type = "music_out"))
      ++ orphanErrs TErr.orphanAmbienceOut
          ((ambienceEventsOf events).filter (fun e => e.type = "ambience_in"))
          ((ambienceEventsOf events).filter (fun e => e.type = "ambience_out")) := rfl
  have hmscan : ∀ (d : Option String),
      (musicScanErrs (musicEventsOf events)).countP (fun x => x = TErr.orphanMusicOut d) = 0 ∧
      (musicScanErrs (musicEventsOf events)).countP (fun x => x = TErr.orphanAmbienceOut d) = 0 := by
    intro d
    constructor <;>
    · refine List.countP_eq_zero.mpr ?_
      intro a ha
      rcases musicScanErrs_shape ha with ⟨_, _, _, _, rfl⟩
      simp
  have horder : orderErrs (sortByAt events) = [] := orderErrs_of_pairwise _ (sortByAt_pairwise events)
  have hmusO : (orphanErrs TErr.orphanMusicOut
      ((musicEventsOf events).filter (fun e => e.type = "music_in"))
      ((musicEventsOf events).filter (fun e => e.type = "music_out"))).countP
        (fun x => x = TErr.orphanAmbienceOut c) = 0 := by
    refine List.countP_eq_zero.mpr ?_
    intro a ha
    rcases orphanErrs_shape ha with ⟨_, rfl⟩
    simp
  have hambO : (orphanErrs TErr.orphanAmbienceOut
      ((ambienceEventsOf events).filter (fun e => e.type = "ambience_in"))
      ((ambienceEventsOf events).filter (fun e => e.type = "ambience_out"))).countP
        (fun x => x = TErr.orphanMusicOut c) = 0 := by
    refine List.countP_eq_zero.mpr ?_
    intro a ha
    rcases orphanErrs_shape ha with ⟨_, rfl⟩
    simp
  have hmusC : (orphanErrs TErr.orphanMusicOut
      ((musicEventsOf events).filter (fun e => e.type = "music_in"))
      ((musicEventsOf events).filter (fun e => e.type = "music_out"))).countP
        (fun x => x = TErr.orphanMusicOut c)
      = if (∃ e ∈ events, e.type = "music_out" ∧ e.cue_id = c)
           ∧ ¬ ∃ e ∈ events, e.type = "music_in" ∧ e.cue_id = c then 1 else 0 := by
    rw [orphanErrs_countP TErr.orphanMusicOut (fun a b h => by injection h) c]
    refine if_congr (and_congr ?_ (not_congr ?_)) rfl rfl
    · exact mem_cueIds events "music_in" "music_out" "music_out" c (Or.inr rfl)
    · exact mem_cueIds events "music_in" "music_out" "music_in" c (Or.inl rfl)
  have hambC : (orphanErrs TErr.orphanAmbienceOut
      ((ambienceEventsOf events).filter (fun e => e.type = "ambience_in"))
      ((ambienceEventsOf events).filter (fun e => e.type = "ambience_out"))).countP
        (fun x => x = TErr.orphanAmbienceOut c)
      = if (∃ e ∈ events, e.type = "ambience_out" ∧ e.cue_id = c)
           ∧ ¬ ∃ e ∈ events, e.type = "ambience_in" ∧ e.cue_id = c then 1 else 0 := by
    rw [orphanErrs_countP TErr.orphanAmbienceOut (fun a b h => by injection h) c]
    refine if_congr (and_congr ?_ (not_congr ?_)) rfl rfl
    · exact mem_cueIds events "ambience_in" "ambience_out" "ambience_out" c (Or.inr rfl)
    · exact mem_cueIds events "ambience_in" "ambience_out" "ambience_in" c (Or.inl rfl)
  have h1 : (validateTimeline events).errors.countP (fun x => x = TErr.orphanMusicOut c)
      = if (∃ e ∈ events, e.type = "music_out" ∧ e.cue_id = c)
           ∧ ¬ ∃ e ∈ events, e.type = "music_in" ∧ e.cue_id = c then 1 else 0 := by
    rw [herr, List.countP_append, List.countP_append, List.countP_append,
      (hmscan c).1, horder, hambO, hmusC]
    simp
  refine ⟨h1, ?_, ?_⟩
  · rw [herr, List.countP_append, List.countP_append, List.countP_append,
      (hmscan c).2, horder, hmusO, hambC]
    simp
  · intro hcond
    rw [if_pos hcond] at h1
    have hne : (validateTimeline events).errors ≠ [] := by
      intro h0
      rw [h0] at h1
      simp at h1
    have : (validateTimeline events).valid = (validateTimeline events).errors.isEmpty := rfl
    rw [this]
    simpa using hne

/-- Witness for the amended C4 at a concrete orphan: a lone
`music_out("X")` makes the timeline invalid. -/
theorem validateTimeline_orphan_rule_witness :
    ((∃ e ∈ [(⟨"music_out", 0, some "X", none, none, none, none⟩ : TEvent)],
        e.type = "music_out" ∧ e.cue_id = some "X")
      ∧ ¬ (∃ e ∈ [(⟨"music_out", 0, some "X", none, none, none, none⟩ : TEvent)],
        e.type = "music_in" ∧ e.cue_id = some "X"))
    ∧ (validateTimeline [⟨"music_out", 0, some "X", none, none, none, none⟩]).valid = false :=
  ⟨by decide,
   (validateTimeline_orphan_rule [⟨"music_out", 0, some "X", none, none, none, none⟩]
     (some "X")).2.2 (by decide)⟩

theorem dupOutErrs_shape_fold :
    ∀ (parts : List (List Char)) (st : List (List Char) × List FErr),
      (∀ x ∈ st.2, ∃ l, x = FErr.duplicateOut l) →
      ∀ x ∈ (parts.foldl (fun (st : List (List Char) × List FErr) p =>
        match outputLabel p with
        | some l =>
          if l ∈ st.1 then (st.1, st.2 ++ [FErr.duplicateOut (String.mk l)])
          else (st.1 ++ [l], st.2)
        | none => st) st).2, ∃ l, x = FErr.duplicateOut l := by
  intro parts
  induction parts with
  | nil => intro st h x hx; exact h x hx
  | cons p rest ih =>
    intro st h x hx
    refine ih _ ?_ x hx
    intro y hy
    rcases ho : outputLabel p with _ | l
    · simp only [List.foldl_cons, ho] at hy
      exact h y hy
    · simp only [List.foldl_cons, ho] at hy
      by_cases hl : l ∈ st.1
      · rw [if_pos hl] at hy
        rcases List.mem_append.mp hy with h2 | h2
        · exact h y h2
        · exact ⟨String.mk l, by simpa using h2⟩
      · rw [if_neg hl] at hy
        exact h y hy

theorem dupOutErrs_shape {parts : List (List Char)} {x : FErr} (hx : x ∈ dupOutErrs parts) :
    ∃ l, x = FErr.duplicateOut l :=
  dupOutErrs_shape_fold parts ([], []) (by simp) x hx

theorem cycleScan_shape (g : List (List Char × List (List Char))) :
    ∀ (l : List (List Char × List (List Char))) (st : List (List Char) × List (List Char)),
      ∀ x ∈ cycleScan g l st, ∃ lab, x = FErr.circular lab := by
  intro l
  induction l with
  | nil => intro st x hx; simp [cycleScan] at hx
  | cons k rest ih =>
    intro st x hx
    simp only [cycleScan] at hx
    split_ifs at hx with h1
    · exact ⟨String.mk k.1, by simpa using hx⟩
    · exact ih _ x hx

theorem mem_undefInputErrs {parts definedLabels : List (List Char)} {s : String} :
    FErr.undefinedInput s ∈ undefInputErrs parts definedLabels ↔
    ∃ p ∈ parts, ∃ l ∈ inputLabels p,
      s = String.mk l ∧ ¬ isStreamSpec l ∧ l ∉ definedLabels := by
  simp only [undefInputErrs, List.mem_flatMap, List.mem_filterMap]
  constructor
  · rintro ⟨p, hp, l, hl, hsome⟩
    split_ifs at hsome with h1 h2
    refine ⟨p, hp, l, hl, ?_, h1, h2⟩
    have := Option.some_inj.mp hsome
    injection this with h3
    exact h3.symm
  · rintro ⟨p, hp, l, hl, rfl, h1, h2⟩
    exact ⟨p, hp, l, hl, by simp [h1, h2]⟩

/-- C7 (counterexample).  In `[x]f[y];[0:a]g[x]` the first chain reads
label `x`, which is not a stream specifier and is defined only by the
*later* second chain; the claim demands an undefined-input-label error,
but the validator collects the defined labels of all chains before
checking and accepts the graph as fully valid. -/
theorem validateFiltergraph_forward_reference_accepted :
    partsOf "[x]f[y];[0:a]g[x]" = ["[x]f[y]".data, "[0:a]g[x]".data]
    ∧ inputLabels ("[x]f[y]".data) = ["x".data]
    ∧ outputLabel ("[x]f[y]".data) = some ("y".data)
    ∧ outputLabel ("[0:a]g[x]".data) = some ("x".data)
    ∧ ¬ isStreamSpec ("x".data)
    ∧ validateFiltergraph "[x]f[y];[0:a]g[x]" = ⟨true, [], []⟩ := by decide

/-- C7 (amended).  An undefined-input-label error is reported exactly
for each input reference that is not a raw-stream specifier and does
not equal the output label of *any* chain of the graph — earlier or
later: the defined-label set is collected from the whole graph before
checking, so forward references are accepted. -/
theorem validateFiltergraph_undefined_inputs (fg : String) (s : String) :
    FErr.undefinedInput s ∈ (validateFiltergraph fg).errors ↔
    ∃ p ∈ partsOf fg, ∃ l ∈ inputLabels p,
      s = String.mk l ∧ ¬ isStreamSpec l ∧ l ∉ definedLabelsOf fg := by
  have herr : (validateFiltergraph fg).errors =
      (if ((normalizedOf fg).filter (fun c => c = '[')).length ≠
          ((normalizedOf fg).filter (fun c => c = ']')).length then
        [FErr.unbalanced ((normalizedOf fg).filter (fun c => c = '[')).length
          ((normalizedOf fg).filter (fun c => c = ']')).length] else [])
      ++ dupOutErrs (partsOf fg)
      ++ undefInputErrs (partsOf fg) (definedLabelsOf fg)
      ++ cycleErrs (fgGraph (partsOf fg)) := rfl
  rw [herr]
  simp only [List.mem_append]
  constructor
  · rintro (((h | h) | h) | h)
    · split_ifs at h
      · simp at h
      · simp at h
    · rcases dupOutErrs_shape h with ⟨_, hx⟩
      exact absurd hx (by simp)
    · exact mem_undefInputErrs.mp h
    · rcases cycleScan_shape _ _ _ _ h with ⟨_, hx⟩
      exact absurd hx (by simp)
  · intro h
    exact Or.inl (Or.inr (mem_undefInputErrs.mpr h))

theorem ambienceScanFold_shape :
    ∀ (l : List TEvent) (st : List (Option String × CueRange) × List TWarn),
      (∀ x ∈ st.2, ∃ a t c, x = TWarn.ambienceOverlap a t c) →
      ∀ x ∈ (l.foldl ambienceStep st).2, ∃ a t c, x = TWarn.ambienceOverlap a t c := by
  intro l
  induction l with
  | nil => intro st h x hx; exact h x hx
  | cons e rest ih =>
    intro st h x hx
    refine ih (ambienceStep st e) ?_ x hx
    intro y hy
    unfold ambienceStep at hy
    split_ifs at hy with h1
    · rcases List.mem_append.mp hy with h2 | h2
      · exact h y h2
      · rcases List.mem_filterMap.mp h2 with ⟨p, _, hp⟩
        split_ifs at hp
        exact ⟨_, _, _, (Option.some_inj.mp hp).symm⟩
    · exact h y hy

theorem ambienceScanWarns_shape {l : List TEvent} {x : TWarn}
    (hx : x ∈ ambienceScanWarns l) : ∃ a t c, x = TWarn.ambienceOverlap a t c :=
  ambienceScanFold_shape l ([], []) (by simp) x hx

theorem maskMusicCheck_eq_some {m : List TEvent} {line : DSpan} {e : TEvent} {w : TWarn} :
    maskMusicCheck m line e = some w ↔
      e.type = "music_in" ∧ ltE e.atSec line.stop
      ∧ gtE (musicEndOf m e) line.start ∧ duckTooSmall e.duck_db
      ∧ w = TWarn.insufficientDuck line.line_id line.start (e.duck_db.getD 0) := by
  unfold maskMusicCheck
  split_ifs with h1 h2 h3
  · simp only [Option.some_inj]
    constructor
    · intro h; exact ⟨h1.1, h1.2, h2, h3, h.symm⟩
    · intro h; exact h.2.2.2.2.symm
  · simp only [false_iff]
    rintro ⟨_, _, _, h4, _⟩
    simp_all
  · simp only [false_iff]
    rintro ⟨_, _, h4, _, _⟩
    simp_all
  · simp only [false_iff]
    rintro ⟨h4, h5, _, _, _⟩
    simp_all

theorem maskAmbienceCheck_eq_some {a : List TEvent} {line : DSpan} {e : TEvent} {w : TWarn} :
    maskAmbienceCheck a line e = some w ↔
      e.type = "ambience_in" ∧ ltE e.atSec line.stop
      ∧ gtE (ambienceEndOf a e) line.start ∧ gainTooLoud e.gain_db
      ∧ w = TWarn.ambienceMask line.line_id line.start (e.gain_db.getD 0) := by
  unfold maskAmbienceCheck
  split_ifs with h1 h2 h3
  · simp only [Option.some_inj]
    constructor
    · intro h; exact ⟨h1.1, h1.2, h2, h3, h.symm⟩
    · intro h; exact h.2.2.2.2.symm
  · simp only [false_iff]
    rintro ⟨_, _, _, h4, _⟩
    simp_all
  · simp only [false_iff]
    rintro ⟨_, _, h4, _, _⟩
    simp_all
  · simp only [false_iff]
    rintro ⟨h4, h5, _, _, _⟩
    simp_all

theorem duckTooSmall_iff {o : Option ℚ} :
    duckTooSmall o = true ↔ o = none ∨ ∃ d0, o = some d0 ∧ d0 < 3 := by
  cases o <;> simp [duckTooSmall]

theorem gainTooLoud_iff {o : Option ℚ} :
    gainTooLoud o = true ↔ o = none ∨ ∃ g0, o = some g0 ∧ -15 < g0 := by
  cases o <;> simp [gainTooLoud]

/-- C2 (counterexample).  A music cue with `duck_db = 4` (magnitude
less than the claimed 6 dB threshold) active during a dialogue span
produces no warning, because the source only warns when the duck is
missing or below 3 dB; symmetrically an ambience cue with
`gain_db = -16` (greater than the claimed −18 dB threshold) produces no
warning, because the source only warns above −15 dB. -/
theorem validateTimeline_masking_thresholds_differ :
    validateTimeline [⟨"dialogue_in", 0, none, some "L", none, none, none⟩,
        ⟨"music_in", 1, some "X", none, some 4, none, none⟩,
        ⟨"music_out", 9, some "X", none, none, none, none⟩,
        ⟨"dialogue_out", 10, none, some "L", none, none, none⟩] = ⟨true, [], []⟩
    ∧ validateTimeline [⟨"dialogue_in", 0, none, some "L", none, none, none⟩,
        ⟨"ambience_in", 1, some "X", none, none, some (-16), none⟩,
        ⟨"ambience_out", 9, some "X", none, none, none, none⟩,
        ⟨"dialogue_out", 10, none, some "L", none, none, none⟩] = ⟨true, [], []⟩ :=
  ⟨by decide, by decide⟩

/-- C2 (amended).  Masking warnings characterized: for each dialogue
span `[start, end)`, a music `music_in` before `end` whose first
`music_out` time (or `+∞` when absent) exceeds `start` yields an
insufficient-ducking warning naming the line exactly when `duck_db` is
missing or below 3 dB (the message recommends ≥ 6 dB); symmetrically an
ambience cue active during the span yields a masking warning exactly
when `gain_db` is missing or above −15 dB (the message recommends
≤ −18 dB). -/
theorem validateTimeline_masking_rule (events : List TEvent) (l : Option String) (s d : ℚ) :
    (TWarn.insufficientDuck l s d ∈ (validateTimeline events).warnings ↔
      ∃ line ∈ dialogueSpans (dialogueEventsOf events), ∃ e ∈ musicEventsOf events,
        e.type = "music_in" ∧ ltE e.atSec line.stop
        ∧ gtE (musicEndOf (musicEventsOf events) e) line.start
        ∧ (e.duck_db = none ∨ ∃ d0, e.duck_db = some d0 ∧ d0 < 3)
        ∧ l = line.line_id ∧ s = line.start ∧ d = e.duck_db.getD 0)
    ∧ (TWarn.ambienceMask l s d ∈ (validateTimeline events).warnings ↔
      ∃ line ∈ dialogueSpans (dialogueEventsOf events), ∃ e ∈ ambienceEventsOf events,
        e.type = "ambience_in" ∧ ltE e.atSec line.stop
        ∧ gtE (ambienceEndOf (ambienceEventsOf events) e) line.start
        ∧ (e.gain_db = none ∨ ∃ g0, e.gain_db = some g0 ∧ -15 < g0)
        ∧ l = line.line_id ∧ s = line.start ∧ d = e.gain_db.getD 0) := by
  have hw : (validateTimeline events).warnings =
      ambienceScanWarns (ambienceEventsOf events)
      ++ maskWarns (musicEventsOf events) (ambienceEventsOf events)
          (dialogueSpans (dialogueEventsOf events)) := rfl
  constructor
  · rw [hw]
    constructor
    · intro h
      rcases List.mem_append.mp h with h | h
      · rcases ambienceScanWarns_shape h with ⟨_, _, _, hx⟩
        exact absurd hx (by simp)
      · rcases List.mem_flatMap.mp h with ⟨line, hline, hmem⟩
        rcases List.mem_append.mp hmem with h2 | h2
        · rcases List.mem_filterMap.mp h2 with ⟨e, he, hck⟩
          rcases maskMusicCheck_eq_some.mp hck with ⟨ht, hlt, hgt, hduck, heq⟩
          injection heq with e1 e2 e3
          exact ⟨line, hline, e, he, ht, hlt, hgt, duckTooSmall_iff.mp hduck, e1, e2, e3⟩
        · rcases List.mem_filterMap.mp h2 with ⟨e, he, hck⟩
          rcases maskAmbienceCheck_eq_some.mp hck with ⟨_, _, _, _, heq⟩
          exact absurd heq (by simp)
    · rintro ⟨line, hline, e, he, ht, hlt, hgt, hduck, rfl, rfl, rfl⟩
      refine List.mem_append.mpr (Or.inr ?_)
      refine List.mem_flatMap.mpr ⟨line, hline, List.mem_append.mpr (Or.inl ?_)⟩
      exact List.mem_filterMap.mpr ⟨e, he,
        maskMusicCheck_eq_some.mpr ⟨ht, hlt, hgt, duckTooSmall_iff.mpr hduck, rfl⟩⟩
  · rw [hw]
    constructor
    · intro h
      rcases List.mem_append.mp h with h | h
      · rcases ambienceScanWarns_shape h with ⟨_, _, _, hx⟩
        exact absurd hx (by simp)
      · rcases List.mem_flatMap.mp h with ⟨line, hline, hmem⟩
        rcases List.mem_append.mp hmem with h2 | h2
        · rcases List.mem_filterMap.mp h2 with ⟨e, he, hck⟩
          rcases maskMusicCheck_eq_some.mp hck with ⟨_, _, _, _, heq⟩
          exact absurd heq (by simp)
        · rcases List.mem_filterMap.mp h2 with ⟨e, he, hck⟩
          rcases maskAmbienceCheck_eq_some.mp hck with ⟨ht, hlt, hgt, hgain, heq⟩
          injection heq with e1 e2 e3
          exact ⟨line, hline, e, he, ht, hlt, hgt, gainTooLoud_iff.mp hgain, e1, e2, e3⟩
    · rintro ⟨line, hline, e, he, ht, hlt, hgt, hgain, rfl, rfl, rfl⟩
      refine List.mem_append.mpr (Or.inr ?_)
      refine List.mem_flatMap.mpr ⟨line, hline, List.mem_append.mpr (Or.inr ?_)⟩
      exact List.mem_filterMap.mpr ⟨e, he,
        maskAmbienceCheck_eq_some.mpr ⟨ht, hlt, hgt, gainTooLoud_iff.mpr hgain, rfl⟩⟩

theorem strEndsWith_in_not_out {t : String} (h1 : strEndsWith t "_in") :
    ¬ strEndsWith t "_out" := by
  intro h2
  unfold strEndsWith at h1 h2
  rw [List.isSuffixOf_iff_suffix] at h1 h2
  rcases List.suffix_or_suffix_of_suffix h1 h2 with h | h
  · exact absurd h (by decide)
  · exact absurd h (by decide)

theorem autoFix_fold :
    ∀ (rest : List TEvent) (pre : List TEvent) (ins : List (Option String))
      (acc : List TEvent),
      (∀ c, c ∈ ins ↔ ∃ f ∈ pre, strEndsWith f.type "_in" ∧ f.cue_id = c) →
      (rest.foldl (fun (st : List (Option String) × List TEvent) e =>
        if strEndsWith e.type "_in" then
          ((if e.cue_id ∈ st.1 then st.1 else st.1 ++ [e.cue_id]), st.2 ++ [e])
        else if strEndsWith e.type "_out" then
          (st.1, if e.cue_id ∈ st.1 then st.2 ++ [e] else st.2)
        else (st.1, st.2 ++ [e])) (ins, acc)).2 = acc ++ autoFixSpecGo pre rest := by
  intro rest
  induction rest with
  | nil => intro pre ins acc _; simp [autoFixSpecGo]
  | cons e rest2 ih =>
    intro pre ins acc hinv
    by_cases hin : strEndsWith e.type "_in"
    · have hout : ¬ strEndsWith e.type "_out" := strEndsWith_in_not_out hin
      have hcond : ¬ (strEndsWith e.type "_out"
          ∧ ¬ pre.any (fun f => strEndsWith f.type "_in" ∧ f.cue_id = e.cue_id)) :=
        fun hc => hout hc.1
      have hinv2 : ∀ c, c ∈ (if e.cue_id ∈ ins then ins else ins ++ [e.cue_id]) ↔
          ∃ f ∈ pre ++ [e], strEndsWith f.type "_in" ∧ f.cue_id = c := by
        intro c
        constructor
        · intro hc
          by_cases hm : e.cue_id ∈ ins
          · rw [if_pos hm] at hc
            rcases (hinv c).mp hc with ⟨f, hf, hp⟩
            exact ⟨f, by simp [hf], hp⟩
          · rw [if_neg hm] at hc
            rcases List.mem_append.mp hc with hc | hc
            · rcases (hinv c).mp hc with ⟨f, hf, hp⟩
              exact ⟨f, by simp [hf], hp⟩
            · have : c = e.cue_id := by simpa using hc
              exact ⟨e, by simp, hin, this.symm⟩
        · rintro ⟨f, hf, hp⟩
          rcases List.mem_append.mp hf with hf | hf
          · have hc : c ∈ ins := (hinv c).mpr ⟨f, hf, hp⟩
            split_ifs <;> simp [hc]
          · have hfe : f = e := by simpa using hf
            rw [hfe] at hp
            by_cases hm : e.cue_id ∈ ins
            · rw [if_pos hm, ← hp.2]
              exact hm
            · rw [if_neg hm]
              simp [← hp.2]
      simp only [List.foldl_cons, if_pos hin]
      rw [ih (pre ++ [e]) _ _ hinv2]
      have hgo : autoFixSpecGo pre (e :: rest2) =
          (if strEndsWith e.type "_out"
              ∧ ¬ pre.any (fun f => strEndsWith f.type "_in" ∧ f.cue_id = e.cue_id)
           then [] else [e]) ++ autoFixSpecGo (pre ++ [e]) rest2 := rfl
      rw [hgo, if_neg hcond]
      simp
    · by_cases hao : strEndsWith e.type "_out"
      · have hinv2 : ∀ c, c ∈ ins ↔
            ∃ f ∈ pre ++ [e], strEndsWith f.type "_in" ∧ f.cue_id = c := by
          intro c
          rw [hinv c]
          constructor
          · rintro ⟨f, hf, hp⟩
            exact ⟨f, by simp [hf], hp⟩
          · rintro ⟨f, hf, hp⟩
            rcases List.mem_append.mp hf with hf | hf
            · exact ⟨f, hf, hp⟩
            · have hfe : f = e := by simpa using hf
              rw [hfe] at hp
              exact absurd hp.1 hin
        simp only [List.foldl_cons, if_neg hin, if_pos hao]
        by_cases hm : e.cue_id ∈ ins
        · have hany : pre.any (fun f => strEndsWith f.type "_in" ∧ f.cue_id = e.cue_id) := by
            rcases (hinv e.cue_id).mp hm with ⟨f, hf, hp⟩
            exact List.any_eq_true.mpr ⟨f, hf, by simpa using hp⟩
          have hcond : ¬ (strEndsWith e.type "_out"
              ∧ ¬ pre.any (fun f => strEndsWith f.type "_in" ∧ f.cue_id = e.cue_id)) :=
            fun hc => hc.2 hany
          rw [if_pos hm, ih (pre ++ [e]) _ _ hinv2]
          have hgo : autoFixSpecGo pre (e :: rest2) =
              (if strEndsWith e.type "_out"
                  ∧ ¬ pre.any (fun f => strEndsWith f.type "_in" ∧ f.cue_id = e.cue_id)
               then [] else [e]) ++ autoFixSpecGo (pre ++ [e]) rest2 := rfl
          rw [hgo, if_neg hcond]
          simp
        · have hany : ¬ pre.any (fun f => strEndsWith f.type "_in" ∧ f.cue_id = e.cue_id) := by
            intro ha
            rcases List.any_eq_true.mp ha with ⟨f, hf, hp⟩
            exact hm ((hinv e.cue_id).mpr ⟨f, hf, by simpa using hp⟩)
          have hcond : strEndsWith e.type "_out"
              ∧ ¬ pre.any (fun f => strEndsWith f.type "_in" ∧ f.cue_id = e.cue_id) :=
            ⟨hao, hany⟩
          rw [if_neg hm, ih (pre ++ [e]) _ _ hinv2]
          have hgo : autoFixSpecGo pre (e :: rest2) =
              (if strEndsWith e.type "_out"
                  ∧ ¬ pre.any (fun f => strEndsWith f.type "_in" ∧ f.cue_id = e.cue_id)
               then [] else [e]) ++ autoFixSpecGo (pre ++ [e]) rest2 := rfl
          rw [hgo, if_pos hcond]
          simp
      · have hinv2 : ∀ c, c ∈ ins ↔
            ∃ f ∈ pre ++ [e], strEndsWith f.type "_in" ∧ f.cue_id = c := by
          intro c
          rw [hinv c]
          constructor
          · rintro ⟨f, hf, hp⟩
            exact ⟨f, by simp [hf], hp⟩
          · rintro ⟨f, hf, hp⟩
            rcases List.mem_append.mp hf with hf | hf
            · exact ⟨f, hf, hp⟩
            · have hfe : f = e := by simpa using hf
              rw [hfe] at hp
              exact absurd hp.1 hin
        have hcond : ¬ (strEndsWith e.type "_out"
            ∧ ¬ pre.any (fun f => strEndsWith f.type "_in" ∧ f.cue_id = e.cue_id)) :=
          fun hc => hao hc.1
        simp only [List.foldl_cons, if_neg hin, if_neg hao]
        rw [ih (pre ++ [e]) _ _ hinv2]
        have hgo : autoFixSpecGo pre (e :: rest2) =
            (if strEndsWith e.type "_out"
                ∧ ¬ pre.any (fun f => strEndsWith f.type "_in" ∧ f.cue_id = e.cue_id)
             then [] else [e]) ++ autoFixSpecGo (pre ++ [e]) rest2 := rfl
        rw [hgo, if_neg hcond]
        simp

theorem autoFixTimeline_eq_spec (events : List TEvent) :
    autoFixTimeline events = autoFixSpec events := by
  unfold autoFixTimeline autoFixSpec
  rw [autoFix_fold (sortByAt events) [] [] [] (by simp)]
  simp

theorem strEndsWith_out_not_in {t : String} (h1 : strEndsWith t "_out") :
    ¬ strEndsWith t "_in" := fun h2 => strEndsWith_in_not_out h2 h1

theorem autoFixSpecGo_sublist : ∀ (l pre : List TEvent), List.Sublist (autoFixSpecGo pre l) l := by
  intro l
  induction l with
  | nil => intro pre; simp [autoFixSpecGo]
  | cons e rest ih =>
    intro pre
    by_cases hcond : strEndsWith e.type "_out"
        ∧ ¬ pre.any (fun f => strEndsWith f.type "_in" ∧ f.cue_id = e.cue_id)
    · have : autoFixSpecGo pre (e :: rest) = autoFixSpecGo (pre ++ [e]) rest := by
        have hgo : autoFixSpecGo pre (e :: rest) =
            (if strEndsWith e.type "_out"
                ∧ ¬ pre.any (fun f => strEndsWith f.type "_in" ∧ f.cue_id = e.cue_id)
             then [] else [e]) ++ autoFixSpecGo (pre ++ [e]) rest := rfl
        rw [hgo, if_pos hcond]
        simp
      rw [this]
      exact (ih (pre ++ [e])).cons e
    · have : autoFixSpecGo pre (e :: rest) = e :: autoFixSpecGo (pre ++ [e]) rest := by
        have hgo : autoFixSpecGo pre (e :: rest) =
            (if strEndsWith e.type "_out"
                ∧ ¬ pre.any (fun f => strEndsWith f.type "_in" ∧ f.cue_id = e.cue_id)
             then [] else [e]) ++ autoFixSpecGo (pre ++ [e]) rest := rfl
        rw [hgo, if_neg hcond]
        simp
      rw [this]
      exact (ih (pre ++ [e])).cons₂ e

theorem autoFixTimeline_sorted (events : List TEvent) :
    (autoFixTimeline events).Pairwise atLE := by
  rw [autoFixTimeline_eq_spec]
  exact List.Pairwise.sublist (autoFixSpecGo_sublist (sortByAt events) []) (sortByAt_pairwise events)

theorem autoFixSpecGo_stable :
    ∀ (l pre pre2 : List TEvent),
      (∀ c, (∃ f ∈ pre, strEndsWith f.type "_in" ∧ f.cue_id = c) →
            (∃ f ∈ pre2, strEndsWith f.type "_in" ∧ f.cue_id = c)) →
      autoFixSpecGo pre2 (autoFixSpecGo pre l) = autoFixSpecGo pre l := by
  intro l
  induction l with
  | nil => intro pre pre2 _; rfl
  | cons e rest ih =>
    intro pre pre2 hyp
    have hgo : autoFixSpecGo pre (e :: rest) =
        (if strEndsWith e.type "_out"
            ∧ ¬ pre.any (fun f => strEndsWith f.type "_in" ∧ f.cue_id = e.cue_id)
         then [] else [e]) ++ autoFixSpecGo (pre ++ [e]) rest := rfl
    have hext : ∀ c, (∃ f ∈ pre ++ [e], strEndsWith f.type "_in" ∧ f.cue_id = c) →
        (∃ f ∈ pre2 ++ [e], strEndsWith f.type "_in" ∧ f.cue_id = c) := by
      intro c
      rintro ⟨f, hf, hp⟩
      rcases List.mem_append.mp hf with hf | hf
      · rcases hyp c ⟨f, hf, hp⟩ with ⟨g, hg, hgp⟩
        exact ⟨g, by simp [hg], hgp⟩
      · exact ⟨f, by simp [List.mem_singleton.mp hf], hp⟩
    by_cases hcond : strEndsWith e.type "_out"
        ∧ ¬ pre.any (fun f => strEndsWith f.type "_in" ∧ f.cue_id = e.cue_id)
    · rw [hgo, if_pos hcond]
      simp only [List.nil_append]
      refine ih (pre ++ [e]) pre2 ?_
      intro c
      rintro ⟨f, hf, hp⟩
      rcases List.mem_append.mp hf with hf | hf
      · exact hyp c ⟨f, hf, hp⟩
      · have hfe : f = e := List.mem_singleton.mp hf
        rw [hfe] at hp
        exact absurd hp.1 (strEndsWith_out_not_in hcond.1)
    · rw [hgo, if_neg hcond]
      simp only [List.singleton_append]
      have hgo2 : autoFixSpecGo pre2 (e :: autoFixSpecGo (pre ++ [e]) rest) =
          (if strEndsWith e.type "_out"
              ∧ ¬ pre2.any (fun f => strEndsWith f.type "_in" ∧ f.cue_id = e.cue_id)
           then [] else [e]) ++ autoFixSpecGo (pre2 ++ [e]) (autoFixSpecGo (pre ++ [e]) rest) := rfl
      have hcond2 : ¬ (strEndsWith e.type "_out"
          ∧ ¬ pre2.any (fun f => strEndsWith f.type "_in" ∧ f.cue_id = e.cue_id)) := by
        rintro ⟨ho, hn2⟩
        have hpre : pre.any (fun f => strEndsWith f.type "_in" ∧ f.cue_id = e.cue_id) := by
          by_contra hn
          exact hcond ⟨ho, hn⟩
        rcases List.any_eq_true.mp hpre with ⟨f, hf, hp⟩
        have hp2 := of_decide_eq_true hp
        rcases hyp e.cue_id ⟨f, hf, hp2⟩ with ⟨g, hg, hgp⟩
        exact hn2 (List.any_eq_true.mpr ⟨g, hg, decide_eq_true hgp⟩)
      rw [hgo2, if_neg hcond2]
      simp only [List.singleton_append, List.cons.injEq, true_and]
      exact ih (pre ++ [e]) (pre2 ++ [e]) hext

/-- C10 (amended).  Auto-fix equals its claim-side description: the
event list re-sorted (stably) ascending by `at` with exactly those
`_out` events removed whose cue id was not opened by an `_in` earlier
in the sorted order, every `_in` and every other event type passed
through unchanged; consequently auto-fix is idempotent.  (The further
clause of the claim — that auto-fix never changes overlap or masking
outcomes — is false, see the counterexample.) -/
theorem autoFixTimeline_spec :
    (∀ events : List TEvent, autoFixTimeline events = autoFixSpec events)
    ∧ (∀ events : List TEvent,
        autoFixTimeline (autoFixTimeline events) = autoFixTimeline events) := by
  refine ⟨autoFixTimeline_eq_spec, ?_⟩
  intro events
  rw [autoFixTimeline_eq_spec (autoFixTimeline events)]
  unfold autoFixSpec
  have hsorted : sortByAt (autoFixTimeline events) = autoFixTimeline events :=
    List.Sorted.insertionSort_eq (autoFixTimeline_sorted events)
  rw [hsorted, autoFixTimeline_eq_spec events]
  unfold autoFixSpec
  exact autoFixSpecGo_stable (sortByAt events) [] [] (fun c h => h)

/-- C10 (counterexample).  Auto-fix can change masking outcomes: with
`music_out(X, 1)` before `music_in(X, 5)` and a dialogue span `[2, 10)`,
validation of the original timeline emits no warning (the masking check
finds the early `music_out` and takes `musicEnd = 1 ≤ 2`), but auto-fix
drops that `music_out` (its cue was not opened earlier in sorted
order), after which the same cue appears open forever and an
insufficient-ducking warning appears. -/
theorem autoFixTimeline_changes_masking :
    (validateTimeline [⟨"music_out", 1, some "X", none, none, none, none⟩,
        ⟨"dialogue_in", 2, none, some "L", none, none, none⟩,
        ⟨"music_in", 5, some "X", none, none, none, none⟩,
        ⟨"dialogue_out", 10, none, some "L", none, none, none⟩]).warnings = []
    ∧ (validateTimeline (autoFixTimeline
        [⟨"music_out", 1, some "X", none, none, none, none⟩,
        ⟨"dialogue_in", 2, none, some "L", none, none, none⟩,
        ⟨"music_in", 5, some "X", none, none, none, none⟩,
        ⟨"dialogue_out", 10, none, some "L", none, none, none⟩])).warnings =
      [TWarn.insufficientDuck (some "L") 2 0]
    ∧ (validateTimeline [⟨"music_out", 1, some "X", none, none, none, none⟩,
        ⟨"dialogue_in", 2, none, some "L", none, none, none⟩,
        ⟨"music_in", 5, some "X", none, none, none, none⟩,
        ⟨"dialogue_out", 10, none, some "L", none, none, none⟩]).errors = [] :=
  ⟨by decide, by decide, by decide⟩

theorem snoc_eq_append_cons {α : Type} {p : List α} {e : α} {p1 : List α} {f : α}
    {s1 : List α} (h : p ++ [e] = p1 ++ f :: s1) :
    (p = p1 ∧ f = e ∧ s1 = []) ∨ (∃ s2, s1 = s2 ++ [e] ∧ p = p1 ++ f :: s2) := by
  rcases s1.eq_nil_or_concat with rfl | ⟨s2, e2, rfl⟩
  · left
    have h2 := List.append_inj' h rfl
    refine ⟨h2.1, ?_, rfl⟩
    simpa using h2.2.symm
  · right
    rw [List.concat_eq_append,
      show p1 ++ f :: (s2 ++ [e2]) = (p1 ++ f :: s2) ++ [e2] by simp] at h
    have h2 := List.append_inj' h rfl
    have he : e = e2 := by simpa using h2.2
    exact ⟨s2, by rw [List.concat_eq_append, he], h2.1⟩

theorem hasIn_snoc {inT : String} {p : List TEvent} {e : TEvent} {y : Option String} :
    hasIn inT (p ++ [e]) y ↔ hasIn inT p y ∨ (e.type = inT ∧ e.cue_id = y) := by
  simp only [hasIn, List.mem_append, List.mem_singleton]
  constructor
  · rintro ⟨f, hf | rfl, hp⟩
    · exact Or.inl ⟨f, hf, hp⟩
    · exact Or.inr hp
  · rintro (⟨f, hf, hp⟩ | hp)
    · exact ⟨f, Or.inl hf, hp⟩
    · exact ⟨e, Or.inr rfl, hp⟩

theorem openCue_snoc {inT outT : String} {p : List TEvent} {e : TEvent}
    {y : Option String} :
    openCue inT outT (p ++ [e]) y ↔
      (e.type = inT ∧ e.cue_id = y)
      ∨ (openCue inT outT p y ∧ ¬ (e.type = outT ∧ e.cue_id = y)) := by
  constructor
  · rintro ⟨p1, f, s1, heq, ht, hc, hno⟩
    rcases snoc_eq_append_cons heq with ⟨rfl, rfl, rfl⟩ | ⟨s2, rfl, rfl⟩
    · exact Or.inl ⟨ht, hc⟩
    · refine Or.inr ⟨⟨p1, f, s2, rfl, ht, hc, ?_⟩, ?_⟩
      · intro g hg
        exact hno g (by simp [hg])
      · exact hno e (by simp)
  · rintro (⟨ht, hc⟩ | ⟨⟨p1, f, s2, rfl, ht, hc, hno⟩, hne⟩)
    · exact ⟨p, e, [], rfl, ht, hc, by simp⟩
    · refine ⟨p1, f, s2 ++ [e], by simp, ht, hc, ?_⟩
      intro g hg
      rcases List.mem_append.mp hg with hg | hg
      · exact hno g hg
      · rw [List.mem_singleton.mp hg]
        exact hne

theorem openCue_hasIn {inT outT : String} {p : List TEvent} {y : Option String}
    (h : openCue inT outT p y) : hasIn inT p y := by
  rcases h with ⟨p1, f, s1, rfl, ht, hc, _⟩
  exact ⟨f, by simp, ht, hc⟩

theorem overlapEmit_snoc {inT outT : String} {q : List TEvent} {e : TEvent}
    {X : Option String} {t : ℚ} {Y : Option String} :
    overlapEmit inT outT (q ++ [e]) X t Y ↔
      overlapEmit inT outT q X t Y
      ∨ (e.type = inT ∧ e.cue_id = X ∧ e.atSec = t ∧ openCue inT outT q Y) := by
  constructor
  · rintro ⟨p1, f, s1, heq, ht, hc, hat, hopen⟩
    rcases snoc_eq_append_cons heq with ⟨rfl, rfl, rfl⟩ | ⟨s2, rfl, rfl⟩
    · exact Or.inr ⟨ht, hc, hat, hopen⟩
    · exact Or.inl ⟨p1, f, s2, rfl, ht, hc, hat, hopen⟩
  · rintro (⟨p1, f, s1, rfl, ht, hc, hat, hopen⟩ | ⟨ht, hc, hat, hopen⟩)
    · exact ⟨p1, f, s1 ++ [e], by simp, ht, hc, hat, hopen⟩
    · exact ⟨q, e, [], rfl, ht, hc, hat, hopen⟩

theorem mem_mapSet {act : List (Option String × CueRange)} {k : Option String}
    {v : CueRange} {y : Option String} {r : CueRange} :
    (y, r) ∈ mapSet act k v ↔ ((y = k ∧ r = v) ∨ ((y, r) ∈ act ∧ y ≠ k)) := by
  unfold mapSet
  split_ifs with hany
  · constructor
    · intro h
      rcases List.mem_map.mp h with ⟨pr, hpr, hf⟩
      by_cases hk : pr.1 = k
      · rw [if_pos hk] at hf
        exact Or.inl ⟨(Prod.mk.injEq _ _ _ _ ▸ hf).1.symm ▸ rfl,
          ((Prod.mk.injEq _ _ _ _).mp hf).2.symm⟩
      · rw [if_neg hk] at hf
        subst hf
        exact Or.inr ⟨hpr, by simpa using hk⟩
    · rintro (⟨rfl, rfl⟩ | ⟨hmem, hne⟩)
      · rcases List.any_eq_true.mp hany with ⟨pr, hpr, hk⟩
        refine List.mem_map.mpr ⟨pr, hpr, ?_⟩
        rw [if_pos (of_decide_eq_true hk)]
      · refine List.mem_map.mpr ⟨(y, r), hmem, ?_⟩
        rw [if_neg (by simpa using hne)]
  · have hnk : ∀ pr ∈ act, ¬ (pr.1 = k) := by
      intro pr hpr hk
      exact hany (List.any_eq_true.mpr ⟨pr, hpr, decide_eq_true hk⟩)
    constructor
    · intro h
      rcases List.mem_append.mp h with h | h
      · exact Or.inr ⟨h, hnk (y, r) h⟩
      · have := List.mem_singleton.mp h
        exact Or.inl ⟨((Prod.mk.injEq _ _ _ _).mp this).1,
          ((Prod.mk.injEq _ _ _ _).mp this).2⟩
    · rintro (⟨rfl, rfl⟩ | ⟨hmem, _⟩)
      · simp
      · exact List.mem_append.mpr (Or.inl hmem)

theorem mem_mapSetEnd {act : List (Option String × CueRange)} {k : Option String}
    {t : ℚ} {y : Option String} {r : CueRange} :
    (y, r) ∈ mapSetEnd act k t ↔
      ∃ r0, (y, r0) ∈ act ∧
        ((y = k ∧ r = { r0 with stop := some t }) ∨ (y ≠ k ∧ r = r0)) := by
  unfold mapSetEnd
  constructor
  · intro h
    rcases List.mem_map.mp h with ⟨pr, hpr, hf⟩
    by_cases hk : pr.1 = k
    · rw [if_pos hk] at hf
      refine ⟨pr.2, ?_, Or.inl ⟨?_, ?_⟩⟩
      · have hy : pr.1 = y := ((Prod.mk.injEq _ _ _ _).mp hf).1
        rw [← hy]; exact hpr
      · rw [← ((Prod.mk.injEq _ _ _ _).mp hf).1, hk]
      · exact ((Prod.mk.injEq _ _ _ _).mp hf).2.symm
    · rw [if_neg hk] at hf
      subst hf
      exact ⟨r, hpr, Or.inr ⟨by simpa using hk, rfl⟩⟩
  · rintro ⟨r0, hmem, ⟨rfl, rfl⟩ | ⟨hne, rfl⟩⟩
    · refine List.mem_map.mpr ⟨(y, r0), hmem, ?_⟩
      rw [if_pos rfl]
    · refine List.mem_map.mpr ⟨(y, r), hmem, ?_⟩
      rw [if_neg (by simpa using hne)]

theorem INVact_step {inT outT : String} (hne : inT ≠ outT) {p : List TEvent} {e : TEvent}
    {act : List (Option String × CueRange)} (hInv : INVact inT outT p act) :
    INVact inT outT (p ++ [e]) (actStep inT outT act e) := by
  obtain ⟨h1, h2, h3⟩ := hInv
  unfold actStep
  by_cases hin : e.type = inT
  · rw [if_pos hin]
    refine ⟨?_, ?_, ?_⟩
    · intro y
      rw [hasIn_snoc]
      constructor
      · rintro ⟨r, hr⟩
        rcases mem_mapSet.mp hr with ⟨rfl, rfl⟩ | ⟨hmem, _⟩
        · exact Or.inr ⟨hin, rfl⟩
        · exact Or.inl ((h1 y).mp ⟨r, hmem⟩)
      · rintro (hy | ⟨_, hc⟩)
        · by_cases hyk : y = e.cue_id
          · exact ⟨⟨e.atSec, none⟩, mem_mapSet.mpr (Or.inl ⟨hyk, rfl⟩)⟩
          · rcases (h1 y).mpr hy with ⟨r, hr⟩
            exact ⟨r, mem_mapSet.mpr (Or.inr ⟨hr, hyk⟩)⟩
        · exact ⟨⟨e.atSec, none⟩, mem_mapSet.mpr (Or.inl ⟨hc.symm, rfl⟩)⟩
    · intro y r hr
      rw [openCue_snoc]
      rcases mem_mapSet.mp hr with ⟨rfl, rfl⟩ | ⟨hmem, hyk⟩
      · simp only [true_iff]
        exact Or.inl ⟨hin, trivial⟩
      · rw [h2 y r hmem]
        constructor
        · intro ho
          refine Or.inr ⟨ho, ?_⟩
          rintro ⟨hot, _⟩
          exact hne (hin ▸ hot ▸ rfl)
        · rintro (⟨_, hc⟩ | ⟨ho, _⟩)
          · exact absurd hc.symm hyk
          · exact ho
    · intro y r v hr hstop
      rcases mem_mapSet.mp hr with ⟨rfl, rfl⟩ | ⟨hmem, _⟩
      · simp at hstop
      · rcases h3 y r v hmem hstop with ⟨f, hf, hp⟩
        exact ⟨f, by simp [hf], hp⟩
  · by_cases hout : e.type = outT
    · rw [if_neg hin, if_pos hout]
      refine ⟨?_, ?_, ?_⟩
      · intro y
        rw [hasIn_snoc]
        constructor
        · rintro ⟨r, hr⟩
          rcases mem_mapSetEnd.mp hr with ⟨r0, hmem, _⟩
          exact Or.inl ((h1 y).mp ⟨r0, hmem⟩)
        · rintro (hy | ⟨ht, _⟩)
          · rcases (h1 y).mpr hy with ⟨r, hr⟩
            by_cases hyk : y = e.cue_id
            · exact ⟨{ r with stop := some e.atSec },
                mem_mapSetEnd.mpr ⟨r, hr, Or.inl ⟨hyk, rfl⟩⟩⟩
            · exact ⟨r, mem_mapSetEnd.mpr ⟨r, hr, Or.inr ⟨hyk, rfl⟩⟩⟩
          · exact absurd ht (by rw [hout]; exact fun h => hne h.symm)
      · intro y r hr
        rw [openCue_snoc]
        rcases mem_mapSetEnd.mp hr with ⟨r0, hmem, ⟨rfl, rfl⟩ | ⟨hyk, rfl⟩⟩
        · constructor
          · intro h; simp at h
          · rintro (⟨ht, _⟩ | ⟨_, hno⟩)
            · exact absurd ht (by rw [hout]; exact fun h => hne h.symm)
            · exact absurd ⟨hout, rfl⟩ hno
        · rw [h2 y r hmem]
          constructor
          · intro ho
            refine Or.inr ⟨ho, ?_⟩
            rintro ⟨_, hc⟩
            exact hyk hc.symm
          · rintro (⟨ht, _⟩ | ⟨ho, _⟩)
            · exact absurd ht (by rw [hout]; exact fun h => hne h.symm)
            · exact ho
      · intro y r v hr hstop
        rcases mem_mapSetEnd.mp hr with ⟨r0, hmem, ⟨rfl, rfl⟩ | ⟨hyk, rfl⟩⟩
        · have hv : v = e.atSec := by simpa using hstop.symm
          exact ⟨e, by simp, hout, rfl, hv.symm⟩
        · rcases h3 y r v hmem hstop with ⟨f, hf, hp⟩
          exact ⟨f, by simp [hf], hp⟩
    · rw [if_neg hin, if_neg hout]
      refine ⟨?_, ?_, ?_⟩
      · intro y
        rw [hasIn_snoc, h1 y]
        constructor
        · exact Or.inl
        · rintro (hy | ⟨ht, _⟩)
          · exact hy
          · exact absurd ht hin
      · intro y r hr
        rw [openCue_snoc, h2 y r hr]
        constructor
        · intro ho
          exact Or.inr ⟨ho, fun hc => hout hc.1⟩
        · rintro (⟨ht, _⟩ | ⟨ho, _⟩)
          · exact absurd ht hin
          · exact ho
      · intro y r v hr hstop
        rcases h3 y r v hr hstop with ⟨f, hf, hp⟩
        exact ⟨f, by simp [hf], hp⟩

theorem musicOverlapCheck_mem_chunk (m : List TEvent) {p : List TEvent} {e : TEvent}
    {act : List (Option String × CueRange)}
    (hInv : INVact "music_in" "music_out" p act)
    (hbound : ∀ f ∈ p, f.atSec ≤ e.atSec)
    {X Y : Option String} {t : ℚ} {en : Option ℚ} :
    TErr.musicOverlap X t Y en ∈ act.filterMap (musicOverlapCheck m e) ↔
      X = e.cue_id ∧ t = e.atSec ∧ en = none ∧ openCue "music_in" "music_out" p Y := by
  obtain ⟨h1, h2, h3⟩ := hInv
  have hck : ∀ y r, (y, r) ∈ act →
      ∀ err, (musicOverlapCheck m e (y, r) = some err ↔
        r.stop = none ∧ err = TErr.musicOverlap e.cue_id e.atSec y none) := by
    intro y r hmem err
    cases hstop : r.stop with
    | none =>
      unfold musicOverlapCheck
      rw [hstop]
      constructor
      · intro h
        simp only [ltE, subE, if_true] at h
        exact ⟨rfl, (Option.some_inj.mp h).symm⟩
      · rintro ⟨_, rfl⟩
        simp [ltE, subE]
    | some v =>
      rcases h3 y r v hmem hstop with ⟨f, hf, _, _, hat⟩
      have hle : v ≤ e.atSec := hat ▸ hbound f hf
      unfold musicOverlapCheck
      rw [hstop]
      have hlt : ltE e.atSec (some v) = false := by
        simp [ltE, not_lt.mpr hle]
      rw [hlt]
      simp
  constructor
  · intro h
    rcases List.mem_filterMap.mp h with ⟨pr, hpr, hsome⟩
    have hpr2 : (pr.1, pr.2) ∈ act := hpr
    rcases (hck pr.1 pr.2 hpr2 _).mp hsome with ⟨hstop, heq⟩
    injection heq with e1 e2 e3 e4
    exact ⟨e1, e2, e4, e3 ▸ (h2 pr.1 pr.2 hpr2).mp hstop⟩
  · rintro ⟨rfl, rfl, rfl, hopen⟩
    rcases (h1 Y).mpr (openCue_hasIn hopen) with ⟨r, hr⟩
    have hstop : r.stop = none := (h2 Y r hr).mpr hopen
    refine List.mem_filterMap.mpr ⟨(Y, r), hr, ?_⟩
    exact (hck Y r hr _).mpr ⟨hstop, rfl⟩

theorem ambienceCheck_mem_chunk {p : List TEvent} {e : TEvent}
    {act : List (Option String × CueRange)}
    (hInv : INVact "ambience_in" "ambience_out" p act)
    (hbound : ∀ f ∈ p, f.atSec ≤ e.atSec)
    {X Y : Option String} {t : ℚ} :
    TWarn.ambienceOverlap X t Y ∈ act.filterMap (fun pr =>
        if ltE e.atSec pr.2.stop then some (TWarn.ambienceOverlap e.cue_id e.atSec pr.1)
        else none) ↔
      X = e.cue_id ∧ t = e.atSec ∧ openCue "ambience_in" "ambience_out" p Y := by
  obtain ⟨h1, h2, h3⟩ := hInv
  constructor
  · intro h
    rcases List.mem_filterMap.mp h with ⟨pr, hpr, hsome⟩
    have hpr2 : (pr.1, pr.2) ∈ act := hpr
    cases hstop : pr.2.stop with
    | none =>
      rw [hstop] at hsome
      simp only [ltE, if_true] at hsome
      have hws := Option.some_inj.mp hsome
      injection hws with e1 e2 e3
      exact ⟨e1.symm, e2.symm, e3.symm ▸ (h2 pr.1 pr.2 hpr2).mp hstop⟩
    | some v =>
      rcases h3 pr.1 pr.2 v hpr2 hstop with ⟨f, hf, _, _, hat⟩
      have hle : v ≤ e.atSec := hat ▸ hbound f hf
      rw [hstop] at hsome
      have hlt : ltE e.atSec (some v) = false := by
        simp [ltE, not_lt.mpr hle]
      rw [hlt] at hsome
      simp at hsome
  · rintro ⟨rfl, rfl, hopen⟩
    rcases (h1 Y).mpr (openCue_hasIn hopen) with ⟨r, hr⟩
    have hstop : r.stop = none := (h2 Y r hr).mpr hopen
    refine List.mem_filterMap.mpr ⟨(Y, r), hr, ?_⟩
    rw [hstop]
    simp [ltE]

theorem overlapEmit_nil {inT outT : String} {X : Option String} {t : ℚ}
    {Y : Option String} : ¬ overlapEmit inT outT [] X t Y := by
  rintro ⟨p1, f, s1, heq, _⟩
  exact absurd heq.symm (by simp)

theorem musicScan_fold (m : List TEvent) :
    ∀ (l p : List TEvent) (act : List (Option String × CueRange)) (errs : List TErr),
      (p ++ l).Pairwise atLE →
      (∀ f ∈ l, f.type = "music_in" ∨ f.type = "music_out") →
      INVact "music_in" "music_out" p act →
      (∀ X t Y en, TErr.musicOverlap X t Y en ∈ errs ↔
        en = none ∧ overlapEmit "music_in" "music_out" p X t Y) →
      ∀ X t Y en,
        TErr.musicOverlap X t Y en ∈ (l.foldl (musicStep m) (act, errs)).2 ↔
          en = none ∧ overlapEmit "music_in" "music_out" (p ++ l) X t Y := by
  intro l
  induction l with
  | nil => intro p act errs _ _ _ herrs X t Y en; simpa using herrs X t Y en
  | cons e rest ih =>
    intro p act errs hsort htypes hInv herrs X t Y en
    have hassoc : p ++ e :: rest = (p ++ [e]) ++ rest := by simp
    have hsort2 : ((p ++ [e]) ++ rest).Pairwise atLE := by rw [← hassoc]; exact hsort
    have hInv2 : INVact "music_in" "music_out" (p ++ [e])
        (actStep "music_in" "music_out" act e) := INVact_step (by decide) hInv
    have hbound : ∀ f ∈ p, f.atSec ≤ e.atSec := by
      intro f hf
      exact (List.pairwise_append.mp hsort).2.2 f hf e (by simp)
    rw [List.foldl_cons]
    rcases htypes e (by simp) with hin | hout
    · have hstep : musicStep m (act, errs) e =
          (actStep "music_in" "music_out" act e,
           errs ++ act.filterMap (musicOverlapCheck m e)) := by
        simp only [musicStep, if_pos hin]
      rw [hstep, hassoc]
      refine ih (p ++ [e]) _ _ hsort2 (fun f hf => htypes f (by simp [hf])) hInv2 ?_ X t Y en
      intro X2 t2 Y2 en2
      rw [List.mem_append, herrs X2 t2 Y2 en2,
        musicOverlapCheck_mem_chunk m hInv hbound, overlapEmit_snoc]
      constructor
      · rintro (⟨rfl, hemit⟩ | ⟨rfl, rfl, rfl, hopen⟩)
        · exact ⟨rfl, Or.inl hemit⟩
        · exact ⟨rfl, Or.inr ⟨hin, rfl, rfl, hopen⟩⟩
      · rintro ⟨rfl, hemit | ⟨_, rfl, rfl, hopen⟩⟩
        · exact Or.inl ⟨rfl, hemit⟩
        · exact Or.inr ⟨rfl, rfl, rfl, hopen⟩
    · have hnotin : ¬ (e.type = "music_in") := by rw [hout]; decide
      have hstep : musicStep m (act, errs) e =
          (actStep "music_in" "music_out" act e, errs) := by
        simp only [musicStep, if_neg hnotin]
      rw [hstep, hassoc]
      refine ih (p ++ [e]) _ _ hsort2 (fun f hf => htypes f (by simp [hf])) hInv2 ?_ X t Y en
      intro X2 t2 Y2 en2
      rw [herrs X2 t2 Y2 en2, overlapEmit_snoc]
      constructor
      · rintro ⟨rfl, hemit⟩
        exact ⟨rfl, Or.inl hemit⟩
      · rintro ⟨rfl, hemit | ⟨hin2, _⟩⟩
        · exact ⟨rfl, hemit⟩
        · rw [hout] at hin2
          exact absurd hin2 (by decide)

theorem ambienceScan_fold :
    ∀ (l p : List TEvent) (act : List (Option String × CueRange)) (warns : List TWarn),
      (p ++ l).Pairwise atLE →
      (∀ f ∈ l, f.type = "ambience_in" ∨ f.type = "ambience_out") →
      INVact "ambience_in" "ambience_out" p act →
      (∀ X t Y, TWarn.ambienceOverlap X t Y ∈ warns ↔
        overlapEmit "ambience_in" "ambience_out" p X t Y) →
      ∀ X t Y,
        TWarn.ambienceOverlap X t Y ∈ (l.foldl ambienceStep (act, warns)).2 ↔
          overlapEmit "ambience_in" "ambience_out" (p ++ l) X t Y := by
  intro l
  induction l with
  | nil => intro p act warns _ _ _ hw X t Y; simpa using hw X t Y
  | cons e rest ih =>
    intro p act warns hsort htypes hInv hw X t Y
    have hassoc : p ++ e :: rest = (p ++ [e]) ++ rest := by simp
    have hsort2 : ((p ++ [e]) ++ rest).Pairwise atLE := by rw [← hassoc]; exact hsort
    have hInv2 : INVact "ambience_in" "ambience_out" (p ++ [e])
        (actStep "ambience_in" "ambience_out" act e) := INVact_step (by decide) hInv
    have hbound : ∀ f ∈ p, f.atSec ≤ e.atSec := by
      intro f hf
      exact (List.pairwise_append.mp hsort).2.2 f hf e (by simp)
    rw [List.foldl_cons]
    rcases htypes e (by simp) with hin | hout
    · have hstep : ambienceStep (act, warns) e =
          (actStep "ambience_in" "ambience_out" act e,
           warns ++ act.filterMap (fun pr =>
             if ltE e.atSec pr.2.stop then
               some (TWarn.ambienceOverlap e.cue_id e.atSec pr.1) else none)) := by
        simp only [ambienceStep, if_pos hin]
      rw [hstep, hassoc]
      refine ih (p ++ [e]) _ _ hsort2 (fun f hf => htypes f (by simp [hf])) hInv2 ?_ X t Y
      intro X2 t2 Y2
      rw [List.mem_append, hw X2 t2 Y2, ambienceCheck_mem_chunk hInv hbound,
        overlapEmit_snoc]
      constructor
      · rintro (hemit | ⟨rfl, rfl, hopen⟩)
        · exact Or.inl hemit
        · exact Or.inr ⟨hin, rfl, rfl, hopen⟩
      · rintro (hemit | ⟨_, rfl, rfl, hopen⟩)
        · exact Or.inl hemit
        · exact Or.inr ⟨rfl, rfl, hopen⟩
    · have hnotin : ¬ (e.type = "ambience_in") := by rw [hout]; decide
      have hstep : ambienceStep (act, warns) e =
          (actStep "ambience_in" "ambience_out" act e, warns) := by
        simp only [ambienceStep, if_neg hnotin]
      rw [hstep, hassoc]
      refine ih (p ++ [e]) _ _ hsort2 (fun f hf => htypes f (by simp [hf])) hInv2 ?_ X t Y
      intro X2 t2 Y2
      rw [hw X2 t2 Y2, overlapEmit_snoc]
      constructor
      · intro hemit
        exact Or.inl hemit
      · rintro (hemit | ⟨hin2, _⟩)
        · exact hemit
        · rw [hout] at hin2
          exact absurd hin2 (by decide)

theorem INVact_nil (inT outT : String) : INVact inT outT [] [] := by
  refine ⟨?_, ?_, ?_⟩
  · intro y
    simp [hasIn]
  · intro y r hr
    simp at hr
  · intro y r v hr
    simp at hr

theorem musicScanErrs_char (events : List TEvent) (X : Option String) (t : ℚ)
    (Y : Option String) (en : Option ℚ) :
    TErr.musicOverlap X t Y en ∈ musicScanErrs (musicEventsOf events) ↔
      en = none ∧ overlapEmit "music_in" "music_out" (musicEventsOf events) X t Y := by
  have h := musicScan_fold (musicEventsOf events) (musicEventsOf events) [] [] []
    (by rw [List.nil_append]; exact sortByAt_pairwise _)
    (by
      intro f hf
      have : f ∈ sortByAt (events.filter (fun e =>
          e.type = "music_in" ∨ e.type = "music_out")) := hf
      rw [sortByAt_mem, List.mem_filter] at this
      simpa using this.2)
    (INVact_nil _ _)
    (by
      intro X2 t2 Y2 en2
      simp only [List.not_mem_nil, false_iff]
      rintro ⟨_, hemit⟩
      exact overlapEmit_nil hemit)
    X t Y en
  simpa using h

theorem ambienceScanWarns_char (events : List TEvent) (X : Option String) (t : ℚ)
    (Y : Option String) :
    TWarn.ambienceOverlap X t Y ∈ ambienceScanWarns (ambienceEventsOf events) ↔
      overlapEmit "ambience_in" "ambience_out" (ambienceEventsOf events) X t Y := by
  have h := ambienceScan_fold (ambienceEventsOf events) [] [] []
    (by rw [List.nil_append]; exact sortByAt_pairwise _)
    (by
      intro f hf
      have : f ∈ sortByAt (events.filter (fun e =>
          e.type = "ambience_in" ∨ e.type = "ambience_out")) := hf
      rw [sortByAt_mem, List.mem_filter] at this
      simpa using this.2)
    (INVact_nil _ _)
    (by
      intro X2 t2 Y2
      simp only [List.not_mem_nil, false_iff]
      exact fun hemit => overlapEmit_nil hemit)
    X t Y
  simpa using h

theorem maskWarns_shape {m a : List TEvent} {lines : List DSpan} {x : TWarn}
    (hx : x ∈ maskWarns m a lines) :
    (∃ l s d, x = TWarn.insufficientDuck l s d) ∨ (∃ l s g, x = TWarn.ambienceMask l s g) := by
  rcases List.mem_flatMap.mp hx with ⟨line, _, hmem⟩
  rcases List.mem_append.mp hmem with h | h
  · rcases List.mem_filterMap.mp h with ⟨e, _, hck⟩
    rcases maskMusicCheck_eq_some.mp hck with ⟨_, _, _, _, rfl⟩
    exact Or.inl ⟨_, _, _, rfl⟩
  · rcases List.mem_filterMap.mp h with ⟨e, _, hck⟩
    rcases maskAmbienceCheck_eq_some.mp hck with ⟨_, _, _, _, rfl⟩
    exact Or.inr ⟨_, _, _, rfl⟩

/-- C3 (counterexample).  `music_in(Y, 0)`, `music_out(Y, 6)` with a
declared 2-second fade, then `music_in(B, 5)`: the claim's fade-window
rule says this is a valid crossfade (`5 ≥ 6 − 2`) and no error should
be reported, but the validator reports a music overlap error — at the
moment the scan processes `B`'s start, `Y`'s tracked end is still
`Infinity` because `Y`'s out event lies later in the sorted order, so
the fade-window test can never exempt a start. -/
theorem validateTimeline_crossfade_never_exempts :
    ¬ ((5 : ℚ) < 6 - 2)
    ∧ validateTimeline [⟨"music_in", 0, some "Y", none, none, none, none⟩,
        ⟨"music_out", 6, some "Y", none, none, none, some 2⟩,
        ⟨"music_in", 5, some "B", none, none, none, none⟩] =
      ⟨false, [TErr.musicOverlap (some "B") 5 (some "Y") none], []⟩ :=
  ⟨by norm_num, by decide⟩

/-- C3 (amended).  The overlap rule as the code actually behaves: a
music overlap error is emitted for the pair `(X starting at t, Y)`
exactly when some `music_in` for `X` at `t` occurs in the sorted music
list while `Y` is open — opened by an earlier `music_in` with no
`music_out` for `Y` in between — and the recorded end for `Y` is always
`Infinity` (`none`); the declared fade never exempts a start, because a
track whose out event has already been processed has `end ≤ t` and is
never considered overlapping, while a track still open has `end = +∞`,
for which the fade-window test always passes.  The ambience rule is the
same with a warning instead of an error and no fade involvement. -/
theorem validateTimeline_overlap_rule (events : List TEvent) (X Y : Option String)
    (t : ℚ) (en : Option ℚ) :
    (TErr.musicOverlap X t Y en ∈ (validateTimeline events).errors ↔
      en = none ∧ overlapEmit "music_in" "music_out" (musicEventsOf events) X t Y)
    ∧ (TWarn.ambienceOverlap X t Y ∈ (validateTimeline events).warnings ↔
      overlapEmit "ambience_in" "ambience_out" (ambienceEventsOf events) X t Y) := by
  constructor
  · have herr : (validateTimeline events).errors =
        musicScanErrs (musicEventsOf events)
        ++ orderErrs (sortByAt events)
        ++ orphanErrs TErr.orphanMusicOut
            ((musicEventsOf events).filter (fun e => e.type = "music_in"))
            ((musicEventsOf events).filter (fun e => e.type = "music_out"))
        ++ orphanErrs TErr.orphanAmbienceOut
            ((ambienceEventsOf events).filter (fun e => e.type = "ambience_in"))
            ((ambienceEventsOf events).filter (fun e => e.type = "ambience_out")) := rfl
    rw [herr]
    simp only [List.mem_append]
    constructor
    · rintro (((h | h) | h) | h)
      · exact (musicScanErrs_char events X t Y en).mp h
      · rw [orderErrs_of_pairwise _ (sortByAt_pairwise events)] at h
        exact absurd h (List.not_mem_nil _)
      · rcases orphanErrs_shape h with ⟨_, hx⟩
        exact absurd hx (by simp)
      · rcases orphanErrs_shape h with ⟨_, hx⟩
        exact absurd hx (by simp)
    · intro h
      exact Or.inl (Or.inl (Or.inl ((musicScanErrs_char events X t Y en).mpr h)))
  · have hw : (validateTimeline events).warnings =
        ambienceScanWarns (ambienceEventsOf events)
        ++ maskWarns (musicEventsOf events) (ambienceEventsOf events)
            (dialogueSpans (dialogueEventsOf events)) := rfl
    rw [hw]
    simp only [List.mem_append]
    constructor
    · rintro (h | h)
      · exact (ambienceScanWarns_char events X t Y).mp h
      · rcases maskWarns_shape h with ⟨_, _, _, hx⟩ | ⟨_, _, _, hx⟩ <;>
          exact absurd hx (by simp)
    · intro h
      exact Or.inl ((ambienceScanWarns_char events X t Y).mpr h)

theorem fgEdge_src_mem {g : List (List Char × List (List Char))} {x y : List Char}
    (h : fgEdge g x y) : x ∈ nodesOf g := by
  unfold fgEdge neighbors at h
  cases hf : g.find? (fun p => p.1 = x) with
  | none => rw [hf] at h; simp at h
  | some pr =>
    have hp := List.find?_some hf
    have hmem := List.mem_of_find?_eq_some hf
    have hx : pr.1 = x := by simpa using hp
    refine List.mem_flatMap.mpr ⟨pr, hmem, ?_⟩
    simp [hx]

theorem fgEdge_tgt_mem {g : List (List Char × List (List Char))} {x y : List Char}
    (h : fgEdge g x y) : y ∈ nodesOf g := by
  unfold fgEdge neighbors at h
  cases hf : g.find? (fun p => p.1 = x) with
  | none => rw [hf] at h; simp at h
  | some pr =>
    have hmem := List.mem_of_find?_eq_some hf
    rw [hf] at h
    have h2 : y ∈ pr.2 := h
    exact List.mem_flatMap.mpr ⟨pr, hmem, by simp [h2]⟩

theorem neighbors_edge {g : List (List Char × List (List Char))} {x y : List Char}
    (h : y ∈ neighbors g x) : fgEdge g x y := h

theorem guardFold_of_true {g : List (List Char × List (List Char))} {fuel : Nat} :
    ∀ (ns : List (List Char)) (st : Bool × List (List Char) × List (List Char)),
      st.1 = true →
      ns.foldl (fun st n => if st.1 then st else dfsNode g fuel n st.2.1 st.2.2) st = st := by
  intro ns
  induction ns with
  | nil => intro st _; rfl
  | cons n rest ih =>
    intro st h
    rw [List.foldl_cons, if_pos h]
    exact ih st h

theorem dfsNode_restore {g : List (List Char × List (List Char))} :
    ∀ (fuel : Nat) (n : List Char) (vis done : List (List Char)),
      (dfsNode g fuel n vis done).1 = false →
      (dfsNode g fuel n vis done).2.1 = vis ∧
        ∀ d ∈ done, d ∈ (dfsNode g fuel n vis done).2.2 := by
  intro fuel
  induction fuel with
  | zero => intro n vis done _; exact ⟨rfl, fun d hd => hd⟩
  | succ fuel ih =>
    have ihfold : ∀ (ns : List (List Char)) (vis done : List (List Char)),
        ((ns.foldl (fun st n => if st.1 then st else dfsNode g fuel n st.2.1 st.2.2)
          (false, vis, done)).1 = false) →
        (ns.foldl (fun st n => if st.1 then st else dfsNode g fuel n st.2.1 st.2.2)
          (false, vis, done)).2.1 = vis ∧
        ∀ d ∈ done, d ∈ (ns.foldl
          (fun st n => if st.1 then st else dfsNode g fuel n st.2.1 st.2.2)
          (false, vis, done)).2.2 := by
      intro ns
      induction ns with
      | nil => intro vis done _; exact ⟨rfl, fun d hd => hd⟩
      | cons n2 rest ihl =>
        intro vis done hfold
        have hinit : (if (false, vis, done).1 = true then ((false, vis, done) :
              Bool × List (List Char) × List (List Char))
            else dfsNode g fuel n2 (false, vis, done).2.1 (false, vis, done).2.2) =
            dfsNode g fuel n2 vis done := by simp
        rw [List.foldl_cons, hinit] at hfold ⊢
        rcases hstep : dfsNode g fuel n2 vis done with ⟨b, vis2, done2⟩
        rw [hstep] at hfold
        cases b with
        | true =>
          exfalso
          rw [guardFold_of_true rest (true, vis2, done2) rfl] at hfold
          simp at hfold
        | false =>
          obtain ⟨hv, hd⟩ := ih n2 vis done (by rw [hstep])
          rw [hstep] at hv hd
          have hv2 : vis2 = vis := hv
          have hd2 : ∀ d ∈ done, d ∈ done2 := hd
          rw [hv2] at hfold ⊢
          obtain ⟨hv3, hd3⟩ := ihl vis done2 hfold
          exact ⟨hv3, fun d hdm => hd3 d (hd2 d hdm)⟩
    intro n vis done h
    have h0 : dfsNode g (fuel + 1) n vis done =
        (if n ∈ vis then (true, vis, done)
         else if n ∈ done then (false, vis, done)
         else
           let r := (neighbors g n).foldl
             (fun st n => if st.1 then st else dfsNode g fuel n st.2.1 st.2.2)
             (false, vis ++ [n], done)
           if r.1 then (true, r.2.1, r.2.2)
           else (false, r.2.1.erase n, r.2.2 ++ [n])) := rfl
    by_cases hvis : n ∈ vis
    · rw [h0, if_pos hvis] at h
      simp at h
    · by_cases hdone : n ∈ done
      · rw [h0, if_neg hvis, if_pos hdone]
        exact ⟨rfl, fun d hd => hd⟩
      · rw [h0, if_neg hvis, if_neg hdone] at h ⊢
        rcases hr : (neighbors g n).foldl
            (fun st n => if st.1 then st else dfsNode g fuel n st.2.1 st.2.2)
            (false, vis ++ [n], done) with ⟨b, visr, doner⟩
        rw [hr] at h
        cases b with
        | true => simp at h
        | false =>
          obtain ⟨hv, hd⟩ := ihfold (neighbors g n) (vis ++ [n]) done (by rw [hr])
          rw [hr] at hv hd
          have hv2 : visr = vis ++ [n] := hv
          have hd2 : ∀ d ∈ done, d ∈ doner := hd
          refine ⟨?_, ?_⟩
          · simp only
            rw [hv2, List.erase_append_right _ (by simpa using hvis)]
            simp
          · intro d hdm
            simp only
            simp [hd2 d hdm]

theorem chain_transGen_last {α : Type} {R : α → α → Prop} :
    ∀ (l : List α) (a b : α), List.Chain R a (l ++ [b]) → Relation.TransGen R a b := by
  intro l
  induction l with
  | nil =>
    intro a b h
    cases h with
    | cons hr _ => exact Relation.TransGen.single hr
  | cons c l ih =>
    intro a b h
    cases h with
    | cons hr ht => exact Relation.TransGen.head hr (ih c b ht)

theorem chain_mem_cycle {α : Type} {R : α → α → Prop} {n : α} {vis : List α}
    (hmem : n ∈ vis) (hch : List.Chain' R (vis ++ [n])) : Relation.TransGen R n n := by
  obtain ⟨l1, l2, rfl⟩ := List.append_of_mem hmem
  have hsuff : (n :: (l2 ++ [n])) <:+ ((l1 ++ n :: l2) ++ [n]) := by
    refine ⟨l1, ?_⟩
    simp
  have hch2 : List.Chain' R (n :: (l2 ++ [n])) := hch.suffix hsuff
  exact chain_transGen_last l2 n n hch2

theorem dfsFold_restore {g : List (List Char × List (List Char))} {fuel : Nat} :
    ∀ (ns : List (List Char)) (vis done : List (List Char)),
      ((ns.foldl (fun st n => if st.1 then st else dfsNode g fuel n st.2.1 st.2.2)
        (false, vis, done)).1 = false) →
      (ns.foldl (fun st n => if st.1 then st else dfsNode g fuel n st.2.1 st.2.2)
        (false, vis, done)).2.1 = vis ∧
      ∀ d ∈ done, d ∈ (ns.foldl
        (fun st n => if st.1 then st else dfsNode g fuel n st.2.1 st.2.2)
        (false, vis, done)).2.2 := by
  intro ns
  induction ns with
  | nil => intro vis done _; exact ⟨rfl, fun d hd => hd⟩
  | cons n2 rest ihl =>
    intro vis done hfold
    have hinit : (if (false, vis, done).1 = true then ((false, vis, done) :
          Bool × List (List Char) × List (List Char))
        else dfsNode g fuel n2 (false, vis, done).2.1 (false, vis, done).2.2) =
        dfsNode g fuel n2 vis done := by simp
    rw [List.foldl_cons, hinit] at hfold ⊢
    rcases hstep : dfsNode g fuel n2 vis done with ⟨b, vis2, done2⟩
    rw [hstep] at hfold
    cases b with
    | true =>
      exfalso
      rw [guardFold_of_true rest (true, vis2, done2) rfl] at hfold
      simp at hfold
    | false =>
      obtain ⟨hv, hd⟩ := dfsNode_restore fuel n2 vis done (by rw [hstep])
      rw [hstep] at hv hd
      have hv2 : vis2 = vis := hv
      have hd2 : ∀ d ∈ done, d ∈ done2 := hd
      rw [hv2] at hfold ⊢
      obtain ⟨hv3, hd3⟩ := ihl vis done2 hfold
      exact ⟨hv3, fun d hdm => hd3 d (hd2 d hdm)⟩

theorem dfsNode_sound {g : List (List Char × List (List Char))} :
    ∀ (fuel : Nat) (n : List Char) (vis done : List (List Char)),
      List.Chain' (fgEdge g) (vis ++ [n]) →
      (dfsNode g fuel n vis done).1 = true → fgCyclic g := by
  intro fuel
  induction fuel with
  | zero => intro n vis done _ h; simp [dfsNode] at h
  | succ fuel ih =>
    have hfoldS : ∀ (ns : List (List Char)) (m : List Char) (vis done : List (List Char)),
        List.Chain' (fgEdge g) (vis ++ [m]) →
        (∀ n2 ∈ ns, fgEdge g m n2) →
        ((ns.foldl (fun st n => if st.1 then st else dfsNode g fuel n st.2.1 st.2.2)
          (false, vis ++ [m], done)).1 = true) → fgCyclic g := by
      intro ns
      induction ns with
      | nil => intro m vis done _ _ h; simp at h
      | cons n2 rest ihl =>
        intro m vis done hch hedges hfold
        have hinit : (if (false, vis ++ [m], done).1 = true then ((false, vis ++ [m], done) :
              Bool × List (List Char) × List (List Char))
            else dfsNode g fuel n2 (false, vis ++ [m], done).2.1
              (false, vis ++ [m], done).2.2) =
            dfsNode g fuel n2 (vis ++ [m]) done := by simp
        rw [List.foldl_cons, hinit] at hfold
        rcases hstep : dfsNode g fuel n2 (vis ++ [m]) done with ⟨b, v2, d2⟩
        rw [hstep] at hfold
        cases b with
        | true =>
          have hch2 : List.Chain' (fgEdge g) ((vis ++ [m]) ++ [n2]) := by
            rw [List.chain'_append]
            refine ⟨hch, by simp, ?_⟩
            intro x hx y hy
            rw [List.getLast?_concat] at hx
            simp at hx hy
            subst hx
            subst hy
            exact hedges n2 (by simp)
          exact ih n2 (vis ++ [m]) done hch2 (by rw [hstep])
        | false =>
          obtain ⟨hv, _⟩ := dfsNode_restore fuel n2 (vis ++ [m]) done (by rw [hstep])
          rw [hstep] at hv
          have hv2 : v2 = vis ++ [m] := hv
          rw [hv2] at hfold
          exact ihl m vis d2 hch (fun x hx => hedges x (by simp [hx])) hfold
    intro n vis done hch h
    have h0 : dfsNode g (fuel + 1) n vis done =
        (if n ∈ vis then (true, vis, done)
         else if n ∈ done then (false, vis, done)
         else
           let r := (neighbors g n).foldl
             (fun st n => if st.1 then st else dfsNode g fuel n st.2.1 st.2.2)
             (false, vis ++ [n], done)
           if r.1 then (true, r.2.1, r.2.2)
           else (false, r.2.1.erase n, r.2.2 ++ [n])) := rfl
    by_cases hvis : n ∈ vis
    · exact ⟨n, chain_mem_cycle hvis hch⟩
    · by_cases hdone : n ∈ done
      · rw [h0, if_neg hvis, if_pos hdone] at h
        simp at h
      · rw [h0, if_neg hvis, if_neg hdone] at h
        rcases hr : (neighbors g n).foldl
            (fun st n => if st.1 then st else dfsNode g fuel n st.2.1 st.2.2)
            (false, vis ++ [n], done) with ⟨b, visr, doner⟩
        rw [hr] at h
        cases b with
        | false => simp at h
        | true => exact hfoldS (neighbors g n) n vis done hch (fun n2 h2 => h2) (by rw [hr])

theorem reachesCycle_step {g : List (List Char × List (List Char))} {n : List Char}
    (h : reachesCycle g n) : ∃ n2, fgEdge g n n2 ∧ reachesCycle g n2 := by
  obtain ⟨w, hrt, hcyc⟩ := h
  rcases Relation.ReflTransGen.cases_head hrt with heq | ⟨c, hc, hcw⟩
  · subst heq
    obtain ⟨c, hc, hcw⟩ := (Relation.TransGen.head'_iff).mp hcyc
    exact ⟨c, hc, n, hcw, hcyc⟩
  · exact ⟨c, hc, w, hcw, hcyc⟩

theorem dfsNode_complete {g : List (List Char × List (List Char))} :
    ∀ (fuel : Nat) (n : List Char) (vis done : List (List Char)),
      n ∈ nodesOf g →
      vis.Nodup → vis ⊆ nodesOf g →
      (nodesOf g).length + 1 ≤ fuel + vis.length →
      (∀ v ∈ done, ¬ reachesCycle g v) →
      (dfsNode g fuel n vis done).1 = false →
      (∀ v ∈ (dfsNode g fuel n vis done).2.2, ¬ reachesCycle g v) ∧
        n ∈ (dfsNode g fuel n vis done).2.2 := by
  intro fuel
  induction fuel with
  | zero =>
    intro n vis done hn hnd hsub hfuel hblack h
    exfalso
    have hle : vis.length ≤ (nodesOf g).length :=
      List.Subperm.length_le (List.Nodup.subperm hnd hsub)
    omega
  | succ fuel ih =>
    have hfoldC : ∀ (ns : List (List Char)) (m : List Char) (vis done : List (List Char)),
        (∀ n2 ∈ ns, n2 ∈ nodesOf g) →
        (vis ++ [m]).Nodup → (vis ++ [m]) ⊆ nodesOf g →
        (nodesOf g).length + 1 ≤ (fuel + 1) + vis.length →
        (∀ v ∈ done, ¬ reachesCycle g v) →
        ((ns.foldl (fun st n => if st.1 then st else dfsNode g fuel n st.2.1 st.2.2)
          (false, vis ++ [m], done)).1 = false) →
        (∀ v ∈ (ns.foldl (fun st n => if st.1 then st else dfsNode g fuel n st.2.1 st.2.2)
          (false, vis ++ [m], done)).2.2, ¬ reachesCycle g v) ∧
        (∀ n2 ∈ ns, n2 ∈ (ns.foldl
          (fun st n => if st.1 then st else dfsNode g fuel n st.2.1 st.2.2)
          (false, vis ++ [m], done)).2.2) := by
      intro ns
      induction ns with
      | nil =>
        intro m vis done _ _ _ _ hblack _
        exact ⟨hblack, by simp⟩
      | cons n2 rest ihl =>
        intro m vis done hns hnd hsub hfuel hblack hfold
        have hinit : (if (false, vis ++ [m], done).1 = true then ((false, vis ++ [m], done) :
              Bool × List (List Char) × List (List Char))
            else dfsNode g fuel n2 (false, vis ++ [m], done).2.1
              (false, vis ++ [m], done).2.2) =
            dfsNode g fuel n2 (vis ++ [m]) done := by simp
        rw [List.foldl_cons, hinit] at hfold ⊢
        rcases hstep : dfsNode g fuel n2 (vis ++ [m]) done with ⟨b, v2, d2⟩
        rw [hstep] at hfold
        cases b with
        | true =>
          exfalso
          rw [guardFold_of_true rest (true, v2, d2) rfl] at hfold
          simp at hfold
        | false =>
          obtain ⟨hbk2, hmem2⟩ := ih n2 (vis ++ [m]) done (hns n2 (by simp)) hnd hsub
            (by simp; omega) hblack (by rw [hstep])
          rw [hstep] at hbk2 hmem2
          have hbk2' : ∀ v ∈ d2, ¬ reachesCycle g v := hbk2
          have hmem2' : n2 ∈ d2 := hmem2
          obtain ⟨hv, _⟩ := dfsNode_restore fuel n2 (vis ++ [m]) done (by rw [hstep])
          rw [hstep] at hv
          have hv2 : v2 = vis ++ [m] := hv
          rw [hv2] at hfold ⊢
          obtain ⟨hbkF, hmemF⟩ := ihl m vis d2 (fun x hx => hns x (by simp [hx]))
            hnd hsub hfuel hbk2' hfold
          obtain ⟨_, hmono⟩ := dfsFold_restore rest (vis ++ [m]) d2 hfold
          refine ⟨hbkF, ?_⟩
          intro x hx
          rcases List.mem_cons.mp hx with rfl | hx2
          · exact hmono x hmem2'
          · exact hmemF x hx2
    intro n vis done hn hnd hsub hfuel hblack h
    have h0 : dfsNode g (fuel + 1) n vis done =
        (if n ∈ vis then (true, vis, done)
         else if n ∈ done then (false, vis, done)
         else
           let r := (neighbors g n).foldl
             (fun st n => if st.1 then st else dfsNode g fuel n st.2.1 st.2.2)
             (false, vis ++ [n], done)
           if r.1 then (true, r.2.1, r.2.2)
           else (false, r.2.1.erase n, r.2.2 ++ [n])) := rfl
    by_cases hvis : n ∈ vis
    · rw [h0, if_pos hvis] at h
      simp at h
    · by_cases hdone : n ∈ done
      · rw [h0, if_neg hvis, if_pos hdone]
        exact ⟨hblack, hdone⟩
      · rw [h0, if_neg hvis, if_neg hdone] at h ⊢
        rcases hr : (neighbors g n).foldl
            (fun st n => if st.1 then st else dfsNode g fuel n st.2.1 st.2.2)
            (false, vis ++ [n], done) with ⟨b, visr, doner⟩
        rw [hr] at h
        cases b with
        | true => simp at h
        | false =>
          have hnd2 : (vis ++ [n]).Nodup := by
            rw [List.nodup_append]
            refine ⟨hnd, List.nodup_singleton n, ?_⟩
            intro x hx hxn
            rw [List.mem_singleton] at hxn
            exact hvis (hxn ▸ hx)
          have hsub2 : (vis ++ [n]) ⊆ nodesOf g := by
            intro x hx
            rcases List.mem_append.mp hx with hx1 | hx1
            · exact hsub hx1
            · simp at hx1
              exact hx1 ▸ hn
          obtain ⟨hbkF, hmemF⟩ := hfoldC (neighbors g n) n vis done
            (fun n2 h2 => fgEdge_tgt_mem h2) hnd2 hsub2 (by omega) hblack (by rw [hr])
          rw [hr] at hbkF hmemF
          have hbkF' : ∀ v ∈ doner, ¬ reachesCycle g v := hbkF
          have hmemF' : ∀ n2 ∈ neighbors g n, n2 ∈ doner := hmemF
          have hnrc : ¬ reachesCycle g n := by
            intro hrc
            obtain ⟨n2, hedge, hrc2⟩ := reachesCycle_step hrc
            exact hbkF' n2 (hmemF' n2 hedge) hrc2
          refine ⟨?_, ?_⟩
          · intro v hv
            have hv' : v ∈ doner ++ [n] := hv
            rcases List.mem_append.mp hv' with hv1 | hv1
            · exact hbkF' v hv1
            · simp at hv1
              exact hv1 ▸ hnrc
          · show n ∈ doner ++ [n]
            simp

theorem cycleScan_sound {g : List (List Char × List (List Char))} :
    ∀ (l : List (List Char × List (List Char))) (done : List (List Char)),
      (∃ s, FErr.circular s ∈ cycleScan g l ([], done)) → fgCyclic g := by
  intro l
  induction l with
  | nil =>
    intro done hex
    obtain ⟨s, hs⟩ := hex
    simp [cycleScan] at hs
  | cons kv rest ih =>
    intro done hex
    obtain ⟨s, hs⟩ := hex
    rcases kv with ⟨k, v⟩
    have hcs : cycleScan g ((k, v) :: rest) ([], done) =
        (let r := dfsNode g (dfsFuel g) k [] done
         if r.1 then [FErr.circular (String.mk k)]
         else cycleScan g rest (r.2.1, r.2.2)) := rfl
    rw [hcs] at hs
    rcases hr : dfsNode g (dfsFuel g) k [] done with ⟨b, v2, d2⟩
    rw [hr] at hs
    cases b with
    | true => exact dfsNode_sound (dfsFuel g) k [] done (by simp) (by rw [hr])
    | false =>
      have hs2 : FErr.circular s ∈ cycleScan g rest (v2, d2) := hs
      obtain ⟨hv, _⟩ := dfsNode_restore (dfsFuel g) k [] done (by rw [hr])
      rw [hr] at hv
      have hv2 : v2 = [] := hv
      rw [hv2] at hs2
      exact ih d2 ⟨s, hs2⟩

theorem cycleScan_complete {g : List (List Char × List (List Char))} :
    ∀ (l : List (List Char × List (List Char))) (done : List (List Char)),
      (∀ p ∈ l, p ∈ g) →
      (∀ v ∈ done, ¬ reachesCycle g v) →
      cycleScan g l ([], done) = [] →
      ∀ p ∈ l, ¬ reachesCycle g p.1 := by
  intro l
  induction l with
  | nil => intro done _ _ _ p hp; simp at hp
  | cons kv rest ih =>
    intro done hsubg hblack hnil p hp
    rcases kv with ⟨k, v⟩
    have hcs : cycleScan g ((k, v) :: rest) ([], done) =
        (let r := dfsNode g (dfsFuel g) k [] done
         if r.1 then [FErr.circular (String.mk k)]
         else cycleScan g rest (r.2.1, r.2.2)) := rfl
    rw [hcs] at hnil
    rcases hr : dfsNode g (dfsFuel g) k [] done with ⟨b, v2, d2⟩
    rw [hr] at hnil
    cases b with
    | true =>
      have h' : [FErr.circular (String.mk k)] = ([] : List FErr) := hnil
      exact (List.cons_ne_nil _ _ h').elim
    | false =>
      have hkg : (k, v) ∈ g := hsubg (k, v) (by simp)
      have hkn : k ∈ nodesOf g := List.mem_flatMap.mpr ⟨(k, v), hkg, by simp⟩
      obtain ⟨hbk2, hkmem⟩ := dfsNode_complete (dfsFuel g) k [] done hkn (by simp)
        (by simp) (by simp [dfsFuel]) hblack (by rw [hr])
      rw [hr] at hbk2 hkmem
      have hbk2' : ∀ x ∈ d2, ¬ reachesCycle g x := hbk2
      have hkmem' : k ∈ d2 := hkmem
      obtain ⟨hv, _⟩ := dfsNode_restore (dfsFuel g) k [] done (by rw [hr])
      rw [hr] at hv
      have hv2 : v2 = [] := hv
      have hnil2 : cycleScan g rest (v2, d2) = [] := hnil
      rw [hv2] at hnil2
      rcases List.mem_cons.mp hp with rfl | hp2
      · exact hbk2' k hkmem'
      · exact ih d2 (fun q hq => hsubg q (by simp [hq])) hbk2' hnil2 p hp2

theorem fgCyclic_key {g : List (List Char × List (List Char))} (h : fgCyclic g) :
    ∃ p ∈ g, reachesCycle g p.1 := by
  obtain ⟨x, hx⟩ := h
  obtain ⟨c, hc, _⟩ := (Relation.TransGen.head'_iff).mp hx
  have hc2 : c ∈ neighbors g x := hc
  unfold neighbors at hc2
  cases hf : g.find? (fun p => p.1 = x) with
  | none => rw [hf] at hc2; simp at hc2
  | some pr =>
    have hmem := List.mem_of_find?_eq_some hf
    have hpred := List.find?_some hf
    have hx1 : pr.1 = x := by simpa using hpred
    exact ⟨pr, hmem, by rw [hx1]; exact ⟨x, Relation.ReflTransGen.refl, hx⟩⟩

theorem cycleScan_len {g : List (List Char × List (List Char))} :
    ∀ (l : List (List Char × List (List Char))) (st : List (List Char) × List (List Char)),
      (cycleScan g l st).length ≤ 1 := by
  intro l
  induction l with
  | nil => intro st; simp [cycleScan]
  | cons kv rest ih =>
    intro st
    rcases kv with ⟨k, v⟩
    simp only [cycleScan]
    split_ifs with h1
    · simp
    · exact ih _

theorem cycleErrs_iff {g : List (List Char × List (List Char))} :
    (∃ s, FErr.circular s ∈ cycleErrs g) ↔ fgCyclic g := by
  constructor
  · exact fun h => cycleScan_sound g [] h
  · intro hcyc
    by_cases hnil : cycleErrs g = []
    · exfalso
      obtain ⟨p, hp, hrc⟩ := fgCyclic_key hcyc
      exact cycleScan_complete g [] (fun q hq => hq) (by simp) hnil p hp hrc
    · rcases he : cycleErrs g with _ | ⟨x, t⟩
      · exact absurd he hnil
      · have hxmem : x ∈ cycleErrs g := by rw [he]; simp
        obtain ⟨lab, hlab⟩ := cycleScan_shape g g ([], []) x hxmem
        exact ⟨lab, by rw [← hlab]; simp⟩

theorem undefInputErrs_shape {parts dl : List (List Char)} {x : FErr}
    (hx : x ∈ undefInputErrs parts dl) : ∃ s, x = FErr.undefinedInput s := by
  unfold undefInputErrs at hx
  rw [List.mem_flatMap] at hx
  obtain ⟨p, _, hx2⟩ := hx
  rw [List.mem_filterMap] at hx2
  obtain ⟨l, _, hsome⟩ := hx2
  split_ifs at hsome
  exact ⟨String.mk l, (Option.some_inj.mp hsome).symm⟩

/-- C8 (counterexample).  In `[b]f[a];[0:a]g[a];[a]h[b]` the defined
labels `a` and `b` depend on each other: the first chain reads `b` and
outputs `a`, the third reads `a` and outputs `b` — a direct cycle among
defined labels, for which the claim demands exactly one cycle error.
But the cycle-detection graph is built with `Map.set`, so the second
chain (output `a`, input the raw stream `0:a`) overwrites the first
chain's edge, the cycle disappears, and the validator reports only the
duplicate-output error and no circular-dependency error. -/
theorem validateFiltergraph_cycle_missed :
    chainDepends "[b]f[a];[0:a]g[a];[a]h[b]" ("a".data) ("b".data) ∧
    chainDepends "[b]f[a];[0:a]g[a];[a]h[b]" ("b".data) ("a".data) ∧
    (validateFiltergraph "[b]f[a];[0:a]g[a];[a]h[b]").errors =
      [FErr.duplicateOut "a"] := by
  refine ⟨by decide, by decide, by decide⟩

/-- C8 (amended).  A circular-dependency error is reported exactly when
the graph the code actually builds — one `Map.set` entry per chain, so a
later chain with the same output label overwrites the earlier chain's
edge list — has a cycle; at most one circular error is ever emitted
(the outer loop breaks on the first cycle found), and a cyclic graph
makes the result invalid. -/
theorem validateFiltergraph_cycle_rule (fg : String) :
    ((∃ s, FErr.circular s ∈ (validateFiltergraph fg).errors) ↔
      fgCyclic (fgGraph (partsOf fg)))
    ∧ List.countP isCircularErr (validateFiltergraph fg).errors ≤ 1
    ∧ (fgCyclic (fgGraph (partsOf fg)) → (validateFiltergraph fg).valid = false) := by
  have herr : (validateFiltergraph fg).errors =
      (if ((normalizedOf fg).filter (fun c => c = '[')).length ≠
          ((normalizedOf fg).filter (fun c => c = ']')).length then
        [FErr.unbalanced ((normalizedOf fg).filter (fun c => c = '[')).length
          ((normalizedOf fg).filter (fun c => c = ']')).length] else [])
      ++ dupOutErrs (partsOf fg)
      ++ undefInputErrs (partsOf fg) (definedLabelsOf fg)
      ++ cycleErrs (fgGraph (partsOf fg)) := rfl
  refine ⟨?_, ?_, ?_⟩
  · rw [herr]
    simp only [List.mem_append]
    constructor
    · rintro ⟨s, ((h | h) | h) | h⟩
      · split_ifs at h
        · simp at h
        · simp at h
      · rcases dupOutErrs_shape h with ⟨_, hx⟩
        exact absurd hx (by simp)
      · rcases undefInputErrs_shape h with ⟨_, hx⟩
        exact absurd hx (by simp)
      · exact cycleErrs_iff.mp ⟨s, h⟩
    · intro hcyc
      obtain ⟨s, hs⟩ := cycleErrs_iff.mpr hcyc
      exact ⟨s, Or.inr hs⟩
  · rw [herr]
    rw [List.countP_append, List.countP_append, List.countP_append]
    have h1 : List.countP isCircularErr
        (if ((normalizedOf fg).filter (fun c => c = '[')).length ≠
            ((normalizedOf fg).filter (fun c => c = ']')).length then
          [FErr.unbalanced ((normalizedOf fg).filter (fun c => c = '[')).length
            ((normalizedOf fg).filter (fun c => c = ']')).length] else []) = 0 := by
      split_ifs
      · rfl
      · rfl
    have h2 : List.countP isCircularErr (dupOutErrs (partsOf fg)) = 0 := by
      rw [List.countP_eq_zero]
      intro x hx
      rcases dupOutErrs_shape hx with ⟨s, rfl⟩
      exact Bool.false_ne_true
    have h3 : List.countP isCircularErr
        (undefInputErrs (partsOf fg) (definedLabelsOf fg)) = 0 := by
      rw [List.countP_eq_zero]
      intro x hx
      rcases undefInputErrs_shape hx with ⟨s, rfl⟩
      exact Bool.false_ne_true
    have h4 : List.countP isCircularErr (cycleErrs (fgGraph (partsOf fg))) ≤ 1 :=
      le_trans (List.countP_le_length _) (cycleScan_len _ _)
    omega
  · intro hcyc
    obtain ⟨s, hs⟩ := cycleErrs_iff.mpr hcyc
    have hmem : FErr.circular s ∈ (validateFiltergraph fg).errors := by
      rw [herr]
      simp only [List.mem_append]
      exact Or.inr hs
    have hval : (validateFiltergraph fg).valid =
        (validateFiltergraph fg).errors.isEmpty := rfl
    rw [hval]
    cases hE : (validateFiltergraph fg).errors with
    | nil => rw [hE] at hmem; simp at hmem
    | cons a t => rfl
